import Mathlib

/-!
Shallow embedding of `dict_dash.py` (the "Dictionary Dash" word-ladder
solver) together with proofs about its behaviour.

Modelling conventions:
* A Python word (string) is a `List Char`.
* Python sets of words are `Finset (List Char)`.  The iteration order of a
  Python set is unspecified, so wherever the program iterates over a set we
  fix the enumeration to the sorted order (`Finset.sort`); all verified
  properties are independent of this enumeration choice.
* The `wil` structure (a `defaultdict` of `defaultdict`s of `set`s) is
  modelled extensionally as a total function `Nat → Char → Finset Word`
  (`buildWil`); a faithful stateful model of the `defaultdict` (including
  the materialisation of missing keys on lookup) is given separately
  (`build_words_by_indexed_letter`, `wil_lookup`) and the two are related
  by the lemma `wil_fun_build`.
* The uncaught `TypeError` raised by `set.intersection()` when called with
  no arguments (which happens exactly when a word has no position other
  than the mutation position) is modelled by `find_similar_words`
  returning `none`, and propagates through the search as the outcome
  `SearchOutcome.crashed`.  The `ValueError` signalling "No solutions" is
  the outcome `SearchOutcome.noLadder`.
* The `while True:` loop of `find_shortest_solution` is modelled with
  explicit fuel `words.card + 1`; the theorem on termination proves that
  this fuel is never exhausted, so the extra `Option` layer never actually
  produces `none`.
-/

namespace DictDash

/-- A word: Python string as a list of characters. -/
abbrev Word : Type := List Char

/-- Extensional content of the `wil` structure built by
`build_words_by_indexed_letter`: `wil[i][c]` is the set of all dictionary
words having letter `c` at position `i` (and the empty set for any pair
that was never populated, matching the `defaultdict` read). -/
def buildWil (words : Finset Word) : Nat → Char → Finset Word :=
  fun i c => words.filter (fun w => w.get? i = some c)

/-- The set `wil[j][word[j]]` used inside `find_similar_words`.  In the
program `j` is always in range, so the `none` branch is unreachable there. -/
def posSet (wil : Nat → Char → Finset Word) (word : Word) (j : Nat) : Finset Word :=
  match word.get? j with
  | some c => wil j c
  | none => ∅

/-- `filter(lambda i: i != index, range(len(word)))`. -/
def offIndexes (word : Word) (index : Nat) : List Nat :=
  (List.range word.length).filter (fun j => j ≠ index)

/-- `find_similar_words(word, index, wil)`:
`set.intersection(*(wil[i][word[i]] for i in indexes)) - {word}`.
When the `indexes` iterator is empty, `set.intersection()` raises a
`TypeError`, modelled by the result `none`. -/
def find_similar_words (word : Word) (index : Nat)
    (wil : Nat → Char → Finset Word) : Option (Finset Word) :=
  match (offIndexes word index).map (posSet wil word) with
  | [] => none
  | s :: rest => some (rest.foldl (· ∩ ·) s \ {word})

/-- Enumeration of a Python set of words (iteration order fixed as the
sorted order, by structural insertion sort so that concrete runs reduce). -/
def sortWords (s : Finset Word) : List Word :=
  Quot.liftOn s.val (fun l => l.insertionSort (· ≤ ·))
    (fun l1 l2 h => List.eq_of_perm_of_sorted
      ((l1.perm_insertionSort _).trans ((Quotient.exact (Quot.sound h)).trans
        (l2.perm_insertionSort _).symm))
      (List.sorted_insertionSort _ _) (List.sorted_insertionSort _ _))


/-- A tree node of the search: `value :: ancestors`, i.e. the Python
`Node(value, parent)` chain flattened into the list that
`retrace_solution` would yield. -/
abbrev Node : Type := List Word

/-- The word stored at a node (`node.value`). -/
def nodeValue (n : Node) : Word := n.headI

/-- `retrace_solution(node)`: the node's value followed by the values of
its ancestors, which is exactly the list the node is. -/
def retrace_solution (n : Node) : List Word := n

/-- Result of `find_shortest_solution`: a returned ladder, the
"No solutions" `ValueError`, or the uncaught `TypeError` from
`set.intersection()` with no arguments. -/
inductive SearchOutcome where
  | found (ladder : List Word)
  | noLadder
  | crashed
deriving DecidableEq

/-- The mutable state of one round of the search loop:
`next_leaf_nodes` and `used_words`. -/
structure RoundState where
  nextLeafNodes : List Node
  usedWords : Finset Word

/-- Consume the candidates generated from one `(node, index)` pair: the
generator filters out words already used (against the live `used_words`),
and the loop body of `find_shortest_solution` either returns the
retraced solution (when the candidate is the end word) or appends the new
node and marks the word used. -/
def consume_similar_words (endWord : Word) (node : Node) :
    List Word → RoundState → SearchOutcome ⊕ RoundState
  | [], st => .inr st
  | sw :: rest, st =>
    if sw ∈ st.usedWords then
      consume_similar_words endWord node rest st
    else if sw = endWord then
      .inl (.found ((retrace_solution (sw :: node)).reverse))
    else
      consume_similar_words endWord node rest
        ⟨st.nextLeafNodes ++ [sw :: node], insert sw st.usedWords⟩

/-- Iterate `for i, letter in enumerate(node.value)` inside
`generate_next_leaf_nodes`, calling `find_similar_words` for each
position.  A `none` from `find_similar_words` is the uncaught
`TypeError`. -/
def consume_positions (endWord : Word) (wil : Nat → Char → Finset Word)
    (node : Node) (value : Word) :
    List Nat → RoundState → SearchOutcome ⊕ RoundState
  | [], st => .inr st
  | i :: rest, st =>
    match find_similar_words value i wil with
    | none => .inl .crashed
    | some sims =>
      match consume_similar_words endWord node (sortWords sims) st with
      | .inl out => .inl out
      | .inr st2 => consume_positions endWord wil node value rest st2

/-- Iterate `for node in nodes` of `generate_next_leaf_nodes`, fused with
the consuming `for` loop of `find_shortest_solution` (the generator is
lazy, so production and consumption interleave exactly like this). -/
def consume_leaf_nodes (endWord : Word) (wil : Nat → Char → Finset Word) :
    List Node → RoundState → SearchOutcome ⊕ RoundState
  | [], st => .inr st
  | node :: rest, st =>
    match consume_positions endWord wil node (nodeValue node)
        (List.range (nodeValue node).length) st with
    | .inl out => .inl out
    | .inr st2 => consume_leaf_nodes endWord wil rest st2

/-- The `while True:` loop of `find_shortest_solution`, with explicit
fuel bounding the number of rounds. -/
def search_loop (endWord : Word) (wil : Nat → Char → Finset Word) :
    Nat → List Node → Finset Word → Option SearchOutcome
  | 0, _, _ => none
  | fuel + 1, leafNodes, usedWords =>
    match consume_leaf_nodes endWord wil leafNodes ⟨[], usedWords⟩ with
    | .inl out => some out
    | .inr st =>
      if st.nextLeafNodes = [] then some .noLadder
      else search_loop endWord wil fuel st.nextLeafNodes st.usedWords

/-- `find_shortest_solution(start_word, end_word, wil)` where
`wil = build_words_by_indexed_letter(words)` (justified by
`wil_fun_build`): `used_words = {start_word}`,
`leaf_nodes = [Node(start_word, parent=None)]`, then the round loop.
The fuel `words.card + 1` strictly bounds the number of rounds because
`used_words` grows strictly each continued round and is contained in
`insert start words`. -/
def find_shortest_solution (startWord endWord : Word) (words : Finset Word) :
    Option SearchOutcome :=
  search_loop endWord (buildWil words) (words.card + 1) [[startWord]] {startWord}

/-! Specification-side notions: one-letter-substitution adjacency and word
ladders, written from the spec's description of the problem. -/

/-- The positions (within `u`'s range) where `u` and `v` hold different
letters. -/
def diffIndexes (u v : Word) : List Nat :=
  (List.range u.length).filter (fun j => u.get? j ≠ v.get? j)

/-- `u` and `v` have equal length and differ in exactly one letter
position: a single one-letter-substitution step. -/
def oneAway (u v : Word) : Prop :=
  u.length = v.length ∧ (diffIndexes u v).length = 1

instance (u v : Word) : Decidable (oneAway u v) :=
  inferInstanceAs (Decidable (_ ∧ _))

/-- One ladder step from `u`: `v` is a dictionary word one letter away. -/
def Adjacent (words : Finset Word) (u v : Word) : Prop :=
  v ∈ words ∧ oneAway u v

instance (words : Finset Word) (u v : Word) : Decidable (Adjacent words u v) :=
  inferInstanceAs (Decidable (_ ∧ _))

/-- A ladder from `s` to `e`: a sequence of words beginning with `s`,
ending with `e`, each consecutive pair one letter apart and each word
after the first belonging to the dictionary.  Its number of steps is
`l.length - 1`. -/
def IsLadderFromTo (words : Finset Word) (s e : Word) (l : List Word) : Prop :=
  l.head? = some s ∧ l.getLast? = some e ∧ l.Chain' (Adjacent words)

/-- Structural decision procedure for the chain condition (so that
concrete ladders can be checked by kernel reduction). -/
def decChainAdjacent (words : Finset Word) :
    ∀ (l : List Word), Decidable (l.Chain' (Adjacent words))
  | [] => isTrue List.chain'_nil
  | [_] => isTrue (List.chain'_singleton _)
  | a :: b :: t =>
    have : Decidable ((b :: t).Chain' (Adjacent words)) :=
      decChainAdjacent words (b :: t)
    decidable_of_iff (Adjacent words a b ∧ (b :: t).Chain' (Adjacent words))
      List.chain'_cons.symm

instance (words : Finset Word) (s e : Word) (l : List Word) :
    Decidable (IsLadderFromTo words s e l) :=
  have : Decidable (l.Chain' (Adjacent words)) := decChainAdjacent words l
  inferInstanceAs (Decidable (_ ∧ _ ∧ _))

/-- Reachability from `s` in exactly `k` ladder steps. -/
def ReachN (words : Finset Word) (s : Word) : Nat → Word → Prop
  | 0, v => v = s
  | k + 1, v => ∃ u, ReachN words s k u ∧ Adjacent words u v

/-- Reachability from `s` in at most `k` ladder steps. -/
def ReachLe (words : Finset Word) (s : Word) (k : Nat) (v : Word) : Prop :=
  ∃ j, j ≤ k ∧ ReachN words s j v

/-- A well-formed search-tree node: its ancestry ends at the start word,
consecutive entries (read from the start outwards) are adjacent, and no
word repeats along the chain. -/
def ValidNode (words : Finset Word) (startWord : Word) (n : Node) : Prop :=
  n.getLast? = some startWord ∧ n.reverse.Chain' (Adjacent words) ∧ n.Nodup

/-! A faithful stateful model of the `defaultdict`-of-`defaultdict`s `wil`
structure.  Python dicts preserve insertion order and mutate in place, so
each level is an association list; reading a missing key through the
`defaultdict` materialises an empty entry (a mutation that leaves the
extensional mapping unchanged). -/

/-- Python dict read (no default). -/
def alist_get {α β : Type} [DecidableEq α] : List (α × β) → α → Option β
  | [], _ => none
  | (a, b) :: t, k => if a = k then some b else alist_get t k

/-- Python dict write `d[k] = v`: replace in place, or append. -/
def alist_set {α β : Type} [DecidableEq α] :
    List (α × β) → α → β → List (α × β)
  | [], k, v => [(k, v)]
  | (a, b) :: t, k, v =>
    if a = k then (k, v) :: t else (a, b) :: alist_set t k v

/-- The inner `defaultdict(set)`: letter ↦ set of words. -/
abbrev InnerDD : Type := List (Char × Finset Word)

/-- The outer `defaultdict`: position ↦ inner mapping. -/
abbrev OuterDD : Type := List (Nat × InnerDD)

/-- `wil[i][letter].add(word)` during construction (both `defaultdict`
levels materialise on access). -/
def dd_add (m : OuterDD) (i : Nat) (c : Char) (w : Word) : OuterDD :=
  alist_set m i
    (alist_set ((alist_get m i).getD []) c
      (insert w ((alist_get ((alist_get m i).getD []) c).getD ∅)))

/-- `build_words_by_indexed_letter(words)`: for every word and every
`(index, letter)` of its enumeration, register the word.  The word set is
iterated in some list order (Python set order is unspecified); the
resulting extensional mapping is order-independent (`wil_fun_build`). -/
def build_words_by_indexed_letter (ws : List Word) : OuterDD :=
  ws.foldl (fun m w => w.enum.foldl (fun m2 p => dd_add m2 p.1 p.2 w) m) []

/-- Reading `wil[i][c]`: the returned set together with the possibly
materialised new state (a missing key at either level is inserted with a
default value by the `defaultdict`). -/
def wil_lookup (m : OuterDD) (i : Nat) (c : Char) : Finset Word × OuterDD :=
  match alist_get m i with
  | none => (∅, alist_set m i [(c, ∅)])
  | some inn =>
    match alist_get inn c with
    | none => (∅, alist_set m i (alist_set inn c ∅))
    | some s => (s, m)

/-- The extensional (position, letter) ↦ word-set mapping of a
`defaultdict` state, reading absent entries as the empty set. -/
def wil_fun (m : OuterDD) (i : Nat) (c : Char) : Finset Word :=
  (alist_get ((alist_get m i).getD []) c).getD ∅

/-- Perform a sequence of `(position, letter)` reads, keeping only the
state (similar-word queries and whole ladder searches read the index
through exactly such primitive lookups). -/
def run_lookups (m : OuterDD) (ops : List (Nat × Char)) : OuterDD :=
  ops.foldl (fun m2 p => (wil_lookup m2 p.1 p.2).2) m

/-! A model of the `cache` decorator on `find_similar_words`.  The cache
key is `args`, the positional arguments `(word, index)` only: the `wil`
structure is always passed as a keyword argument, so it is NOT part of
the key. -/

/-- `wrapped._results_by_args`: the decorator's memoisation dict. -/
abbrev CacheState : Type := List ((Word × Nat) × Finset Word)

/-- One call of the cached `find_similar_words`.  On a key hit the stored
result is returned unchanged, whatever `wil` is passed now; on a miss the
wrapped function runs and its result is stored, while a raised
`TypeError` (modelled by `none`) propagates without touching the cache. -/
def cached_find_similar_words (st : CacheState) (w : Word) (i : Nat)
    (wil : Nat → Char → Finset Word) : Option (Finset Word × CacheState) :=
  match alist_get st (w, i) with
  | some r => some (r, st)
  | none =>
    match find_similar_words w i wil with
    | none => none
    | some r => some (r, st ++ [((w, i), r)])

/-- Every entry of the cache agrees with direct evaluation against the
given index. -/
def CacheConsistent (st : CacheState)
    (wil : Nat → Char → Finset Word) : Prop :=
  ∀ w i r, alist_get st (w, i) = some r →
    find_similar_words w i wil = some r

/-! Basic lemmas about `find_similar_words` and adjacency. -/

lemma mem_sortWords {s : Finset Word} {v : Word} :
    v ∈ sortWords s ↔ v ∈ s := by
  rw [← Finset.mem_val]
  unfold sortWords
  induction s.val using Quot.inductionOn with
  | _ l =>
    show v ∈ l.insertionSort (· ≤ ·) ↔ _
    rw [(l.perm_insertionSort (· ≤ ·)).mem_iff]
    exact Iff.rfl

lemma mem_foldl_inter {α : Type} [DecidableEq α] (l : List (Finset α))
    (s : Finset α) (x : α) :
    x ∈ l.foldl (· ∩ ·) s ↔ x ∈ s ∧ ∀ t ∈ l, x ∈ t := by
  induction l generalizing s with
  | nil => simp
  | cons t l ih =>
    simp only [List.foldl_cons, ih, Finset.mem_inter, List.mem_cons]
    constructor
    · rintro ⟨⟨h1, h2⟩, h3⟩
      exact ⟨h1, fun t' ht' => ht'.elim (fun he => he ▸ h2) (h3 t')⟩
    · rintro ⟨h1, h2⟩
      exact ⟨⟨h1, h2 t (Or.inl rfl)⟩, fun t' ht' => h2 t' (Or.inr ht')⟩

lemma mem_offIndexes {w : Word} {index j : Nat} :
    j ∈ offIndexes w index ↔ j < w.length ∧ j ≠ index := by
  simp [offIndexes, List.mem_filter, List.mem_range]

lemma find_similar_words_single_letter {w : Word} (h1 : w.length = 1)
    (wil : Nat → Char → Finset Word) : find_similar_words w 0 wil = none := by
  have hoff : offIndexes w 0 = [] := by
    unfold offIndexes
    rw [h1]
    rfl
  simp [find_similar_words, hoff]

lemma find_similar_words_isSome {w : Word} (i : Nat) (h2 : 2 ≤ w.length)
    (wil : Nat → Char → Finset Word) :
    ∃ s, find_similar_words w i wil = some s := by
  have hne : offIndexes w i ≠ [] := by
    intro h
    have hj : (if i = 0 then 1 else 0) ∈ offIndexes w i := by
      rw [mem_offIndexes]
      by_cases hi : i = 0 <;> simp [hi] <;> omega
    rw [h] at hj
    exact absurd hj (List.not_mem_nil _)
  rcases hlist : offIndexes w i with _ | ⟨j0, js⟩
  · exact absurd hlist hne
  · rw [find_similar_words, hlist]
    simp only [List.map_cons]
    exact ⟨_, rfl⟩

lemma mem_posSet_of_lt {words : Finset Word} {w : Word} {j : Nat}
    (hj : j < w.length) (v : Word) :
    v ∈ posSet (buildWil words) w j ↔ v ∈ words ∧ v.get? j = w.get? j := by
  obtain ⟨c, hc⟩ : ∃ c, w.get? j = some c := by
    cases hw : w.get? j with
    | none => exact absurd (List.get?_eq_none.mp hw) (by omega)
    | some c => exact ⟨c, rfl⟩
  unfold posSet
  rw [hc]
  simp [buildWil, Finset.mem_filter, hc]

lemma mem_find_similar_words {words : Finset Word} {w : Word} {i : Nat}
    {s : Finset Word}
    (h : find_similar_words w i (buildWil words) = some s) (v : Word) :
    v ∈ s ↔ v ∈ words ∧ v ≠ w ∧
      ∀ j, j < w.length → j ≠ i → v.get? j = w.get? j := by
  rcases hlist : offIndexes w i with _ | ⟨j0, js⟩
  · rw [find_similar_words, hlist] at h
    simp at h
  · rw [find_similar_words, hlist] at h
    simp only [List.map_cons, Option.some.injEq] at h
    have hmemidx : ∀ j : Nat, j ∈ j0 :: js ↔ j < w.length ∧ j ≠ i := by
      intro j
      rw [← hlist, mem_offIndexes]
    have key : v ∈ s ↔
        (∀ j ∈ j0 :: js, v ∈ posSet (buildWil words) w j) ∧ v ≠ w := by
      rw [← h]
      simp only [Finset.mem_sdiff, mem_foldl_inter, List.mem_map,
        Finset.mem_singleton, List.mem_cons]
      constructor
      · rintro ⟨⟨h1, h2⟩, h3⟩
        refine ⟨?_, h3⟩
        rintro j (rfl | hj)
        · exact h1
        · exact h2 _ ⟨j, hj, rfl⟩
      · rintro ⟨h1, h3⟩
        refine ⟨⟨h1 j0 (Or.inl rfl), ?_⟩, h3⟩
        rintro t ⟨j, hj, rfl⟩
        exact h1 j (Or.inr hj)
    rw [key]
    constructor
    · rintro ⟨hall, hne⟩
      have hj0 := (hmemidx j0).mp (List.mem_cons_self _ _)
      have hvw : v ∈ words :=
        ((mem_posSet_of_lt hj0.1 v).mp (hall j0 (List.mem_cons_self _ _))).1
      refine ⟨hvw, hne, ?_⟩
      intro j hj hji
      exact ((mem_posSet_of_lt hj v).mp (hall j ((hmemidx j).mpr ⟨hj, hji⟩))).2
    · rintro ⟨hvw, hne, hagree⟩
      refine ⟨?_, hne⟩
      intro j hj
      have hj2 := (hmemidx j).mp hj
      exact (mem_posSet_of_lt hj2.1 v).mpr ⟨hvw, hagree j hj2.1 hj2.2⟩

lemma sims_subset_words {words : Finset Word} {w : Word} {i : Nat}
    {s : Finset Word}
    (h : find_similar_words w i (buildWil words) = some s) {v : Word}
    (hv : v ∈ s) : v ∈ words :=
  ((mem_find_similar_words h v).mp hv).1

lemma mem_diffIndexes {u v : Word} {j : Nat} :
    j ∈ diffIndexes u v ↔ j < u.length ∧ u.get? j ≠ v.get? j := by
  simp [diffIndexes, List.mem_filter, List.mem_range]

lemma eq_of_agree {u v : Word} (hlen : u.length = v.length)
    (h : ∀ j, j < u.length → u.get? j = v.get? j) : u = v := by
  apply List.ext_get?
  intro j
  by_cases hj : j < u.length
  · exact h j hj
  · rw [List.get?_eq_none.mpr (by omega), List.get?_eq_none.mpr (by omega)]

lemma diffIndexes_eq_singleton_of_oneAway {u v : Word} (h : oneAway u v) :
    ∃ i, diffIndexes u v = [i] ∧ i < u.length ∧ u.get? i ≠ v.get? i := by
  obtain ⟨i, hi⟩ := List.length_eq_one.mp h.2
  have hmem : i ∈ diffIndexes u v := by
    rw [hi]
    exact List.mem_cons_self _ _
  obtain ⟨h1, h2⟩ := mem_diffIndexes.mp hmem
  exact ⟨i, hi, h1, h2⟩

lemma oneAway_symm {u v : Word} (h : oneAway u v) : oneAway v u := by
  obtain ⟨hlen, hdiff⟩ := h
  refine ⟨hlen.symm, ?_⟩
  have : diffIndexes v u = diffIndexes u v := by
    unfold diffIndexes
    rw [← hlen]
    apply List.filter_congr
    intro j _
    simp [ne_comm]
  rw [this]
  exact hdiff

lemma adjacent_mem_sims {words : Finset Word} {u v : Word}
    (h : Adjacent words u v) :
    ∃ i, i < u.length ∧
      ∀ s, find_similar_words u i (buildWil words) = some s → v ∈ s := by
  obtain ⟨hv, hone⟩ := h
  obtain ⟨i, hi, hilt, hne⟩ := diffIndexes_eq_singleton_of_oneAway hone
  refine ⟨i, hilt, ?_⟩
  intro s hs
  rw [mem_find_similar_words hs]
  refine ⟨hv, ?_, ?_⟩
  · intro he
    exact hne (he ▸ rfl)
  · intro j hj hji
    by_contra hagree
    have hmem : j ∈ diffIndexes u v :=
      mem_diffIndexes.mpr ⟨hj, fun he => hagree he.symm⟩
    rw [hi, List.mem_singleton] at hmem
    exact hji hmem

lemma mem_sims_adjacent {words : Finset Word} {L : Nat}
    (Hlen : ∀ w ∈ words, w.length = L) {u v : Word} (hu : u.length = L)
    {i : Nat} {s : Finset Word}
    (hs : find_similar_words u i (buildWil words) = some s) (hv : v ∈ s) :
    Adjacent words u v := by
  rw [mem_find_similar_words hs] at hv
  obtain ⟨hvw, hvne, hagree⟩ := hv
  have hlen : u.length = v.length := by rw [hu, Hlen v hvw]
  refine ⟨hvw, hlen, ?_⟩
  have hsub : ∀ j ∈ diffIndexes u v, j = i := by
    intro j hj
    obtain ⟨hjlt, hjne⟩ := mem_diffIndexes.mp hj
    by_contra hji
    exact hjne (hagree j hjlt hji).symm
  have hnodup : (diffIndexes u v).Nodup := (List.nodup_range _).filter _
  have hnenil : diffIndexes u v ≠ [] := by
    intro hnil
    apply hvne
    apply eq_of_agree hlen.symm
    intro j hj
    by_contra hne2
    have : j ∈ diffIndexes u v :=
      mem_diffIndexes.mpr ⟨by omega, fun he => hne2 he.symm⟩
    rw [hnil] at this
    exact absurd this (List.not_mem_nil _)
  rcases hd : diffIndexes u v with _ | ⟨j0, t⟩
  · exact absurd hd hnenil
  · have hj0 : j0 = i := hsub j0 (by rw [hd]; exact List.mem_cons_self _ _)
    have ht : t = [] := by
      rw [List.eq_nil_iff_forall_not_mem]
      intro x hx
      have hxi : x = i := hsub x (by rw [hd]; exact List.mem_cons_of_mem _ hx)
      rw [hd] at hnodup
      have := (List.nodup_cons.mp hnodup).1
      rw [hj0] at this
      rw [hxi] at hx
      exact this hx
    rw [hd] at *
    rw [ht]
    rfl

/-! Lemmas about one round of the search: what the fused
generator/consumer loop does on early return (`.inl`) and on normal
completion (`.inr`). -/

lemma consume_similar_words_inl {endWord : Word} {node : Node} :
    ∀ (sims : List Word) (st : RoundState) (out : SearchOutcome),
    consume_similar_words endWord node sims st = .inl out →
    out = .found ((endWord :: node).reverse) ∧ endWord ∈ sims ∧
      endWord ∉ st.usedWords := by
  intro sims
  induction sims with
  | nil =>
    intro st out h
    simp [consume_similar_words] at h
  | cons sw rest ih =>
    intro st out h
    simp only [consume_similar_words] at h
    split at h
    · obtain ⟨h1, h2, h3⟩ := ih _ _ h
      exact ⟨h1, List.mem_cons_of_mem _ h2, h3⟩
    · split at h
      · rename_i hused heq
        subst heq
        have hout := Sum.inl.inj h
        subst hout
        exact ⟨rfl, List.mem_cons_self _ _, hused⟩
      · obtain ⟨h1, h2, h3⟩ := ih _ _ h
        refine ⟨h1, List.mem_cons_of_mem _ h2, ?_⟩
        intro hmem
        exact h3 (Finset.mem_insert_of_mem hmem)

lemma consume_similar_words_inr {endWord : Word} {node : Node} :
    ∀ (sims : List Word) (st st2 : RoundState),
    consume_similar_words endWord node sims st = .inr st2 →
    st.usedWords ⊆ st2.usedWords ∧
    (∀ v ∈ sims, v ∈ st2.usedWords) ∧
    (∀ v ∈ st2.usedWords, v ∈ st.usedWords ∨ (v ∈ sims ∧ v ≠ endWord)) ∧
    (∀ n2 ∈ st2.nextLeafNodes, n2 ∈ st.nextLeafNodes ∨
      ∃ v, v ∈ sims ∧ n2 = v :: node ∧ v ∉ st.usedWords ∧ v ≠ endWord ∧
        v ∈ st2.usedWords) ∧
    (∀ v ∈ st2.usedWords, v ∈ st.usedWords ∨
      ∃ n2 ∈ st2.nextLeafNodes, nodeValue n2 = v) ∧
    (∀ n2 ∈ st.nextLeafNodes, n2 ∈ st2.nextLeafNodes) := by
  intro sims
  induction sims with
  | nil =>
    intro st st2 h
    simp only [consume_similar_words] at h
    have hst := Sum.inr.inj h
    subst hst
    exact ⟨fun v hv => hv, by simp, fun v hv => Or.inl hv,
      fun n2 hn2 => Or.inl hn2, fun v hv => Or.inl hv, fun n2 hn2 => hn2⟩
  | cons sw rest ih =>
    intro st st2 h
    simp only [consume_similar_words] at h
    split at h
    · rename_i hused
      obtain ⟨a1, a2, a3, a4, a5, a6⟩ := ih _ _ h
      refine ⟨a1, ?_, ?_, ?_, a5, a6⟩
      · intro v hv
        rcases List.mem_cons.mp hv with rfl | hv2
        · exact a1 hused
        · exact a2 v hv2
      · intro v hv
        rcases a3 v hv with h1 | ⟨h2, h3⟩
        · exact Or.inl h1
        · exact Or.inr ⟨List.mem_cons_of_mem _ h2, h3⟩
      · intro n2 hn2
        rcases a4 n2 hn2 with h1 | ⟨v, hv1, hv2, hv3, hv4, hv5⟩
        · exact Or.inl h1
        · exact Or.inr ⟨v, List.mem_cons_of_mem _ hv1, hv2, hv3, hv4, hv5⟩
    · split at h
      · exact absurd h (by simp)
      · rename_i hused hne
        obtain ⟨a1, a2, a3, a4, a5, a6⟩ := ih _ _ h
        have hsw_used2 : sw ∈ st2.usedWords :=
          a1 (Finset.mem_insert_self _ _)
        have hsw_next2 : (sw :: node) ∈ st2.nextLeafNodes :=
          a6 _ (by simp)
        refine ⟨?_, ?_, ?_, ?_, ?_, ?_⟩
        · intro v hv
          exact a1 (Finset.mem_insert_of_mem hv)
        · intro v hv
          rcases List.mem_cons.mp hv with rfl | hv2
          · exact hsw_used2
          · exact a2 v hv2
        · intro v hv
          rcases a3 v hv with h1 | ⟨h2, h3⟩
          · rcases Finset.mem_insert.mp h1 with rfl | h4
            · exact Or.inr ⟨List.mem_cons_self _ _, hne⟩
            · exact Or.inl h4
          · exact Or.inr ⟨List.mem_cons_of_mem _ h2, h3⟩
        · intro n2 hn2
          rcases a4 n2 hn2 with h1 | ⟨v, hv1, hv2, hv3, hv4, hv5⟩
          · rcases List.mem_append.mp h1 with h2 | h2
            · exact Or.inl h2
            · refine Or.inr ⟨sw, List.mem_cons_self _ _,
                List.mem_singleton.mp h2, hused, hne, hsw_used2⟩
          · refine Or.inr ⟨v, List.mem_cons_of_mem _ hv1, hv2, ?_, hv4, hv5⟩
            intro hv6
            exact hv3 (Finset.mem_insert_of_mem hv6)
        · intro v hv
          rcases a5 v hv with h1 | h2
          · rcases Finset.mem_insert.mp h1 with heq | h3
            · exact Or.inr ⟨sw :: node, hsw_next2, heq.symm⟩
            · exact Or.inl h3
          · exact Or.inr h2
        · intro n2 hn2
          exact a6 _ (List.mem_append_left _ hn2)

lemma consume_positions_inl {endWord : Word} {wil : Nat → Char → Finset Word}
    {node : Node} {value : Word} :
    ∀ (positions : List Nat) (st : RoundState) (out : SearchOutcome),
    consume_positions endWord wil node value positions st = .inl out →
    out = .crashed ∨
      (out = .found ((endWord :: node).reverse) ∧ endWord ∉ st.usedWords ∧
        ∃ i ∈ positions, ∃ s, find_similar_words value i wil = some s ∧
          endWord ∈ s) := by
  intro positions
  induction positions with
  | nil =>
    intro st out h
    simp [consume_positions] at h
  | cons i rest ih =>
    intro st out h
    simp only [consume_positions] at h
    split at h
    · exact Or.inl (Sum.inl.inj h).symm
    · rename_i s hs
      split at h
      · rename_i out2 hc
        have hout := Sum.inl.inj h
        subst hout
        obtain ⟨h1, h2, h3⟩ := consume_similar_words_inl _ _ _ hc
        refine Or.inr ⟨h1, h3, i, List.mem_cons_self _ _, s, hs, ?_⟩
        rw [mem_sortWords] at h2
        exact h2
      · rename_i st3 hc
        obtain ⟨a1, _, _, _, _, _⟩ := consume_similar_words_inr _ _ _ hc
        rcases ih _ _ h with h1 | ⟨h1, h2, i2, hi2, s2, hs2, hend⟩
        · exact Or.inl h1
        · refine Or.inr ⟨h1, fun hmem => h2 (a1 hmem),
            i2, List.mem_cons_of_mem _ hi2, s2, hs2, hend⟩

lemma consume_positions_inr {endWord : Word} {wil : Nat → Char → Finset Word}
    {node : Node} {value : Word} :
    ∀ (positions : List Nat) (st st2 : RoundState),
    consume_positions endWord wil node value positions st = .inr st2 →
    st.usedWords ⊆ st2.usedWords ∧
    (∀ i ∈ positions, ∃ s, find_similar_words value i wil = some s ∧
      ∀ v ∈ s, v ∈ st2.usedWords) ∧
    (∀ v ∈ st2.usedWords, v ∈ st.usedWords ∨
      ∃ i ∈ positions, ∃ s, find_similar_words value i wil = some s ∧
        v ∈ s ∧ v ≠ endWord) ∧
    (∀ n2 ∈ st2.nextLeafNodes, n2 ∈ st.nextLeafNodes ∨
      ∃ i ∈ positions, ∃ s, find_similar_words value i wil = some s ∧
        ∃ v, v ∈ s ∧ n2 = v :: node ∧ v ∉ st.usedWords ∧ v ≠ endWord ∧
          v ∈ st2.usedWords) ∧
    (∀ v ∈ st2.usedWords, v ∈ st.usedWords ∨
      ∃ n2 ∈ st2.nextLeafNodes, nodeValue n2 = v) ∧
    (∀ n2 ∈ st.nextLeafNodes, n2 ∈ st2.nextLeafNodes) := by
  intro positions
  induction positions with
  | nil =>
    intro st st2 h
    simp only [consume_positions] at h
    have hst := Sum.inr.inj h
    subst hst
    exact ⟨fun v hv => hv, by simp, fun v hv => Or.inl hv,
      fun n2 hn2 => Or.inl hn2, fun v hv => Or.inl hv, fun n2 hn2 => hn2⟩
  | cons i rest ih =>
    intro st st2 h
    simp only [consume_positions] at h
    split at h
    · exact absurd h (by simp)
    · rename_i s hs
      split at h
      · exact absurd h (by simp)
      · rename_i st3 hc
        obtain ⟨a1, a2, a3, a4, a5, a6⟩ := consume_similar_words_inr _ _ _ hc
        obtain ⟨b1, b2, b3, b4, b5, b6⟩ := ih _ _ h
        have hs_sub : ∀ v ∈ s, v ∈ st2.usedWords := by
          intro v hv
          exact b1 (a2 v (by rw [mem_sortWords]; exact hv))
        refine ⟨fun v hv => b1 (a1 hv), ?_, ?_, ?_, ?_,
          fun n2 hn2 => b6 _ (a6 _ hn2)⟩
        · intro j hj
          rcases List.mem_cons.mp hj with rfl | hj2
          · exact ⟨s, hs, hs_sub⟩
          · exact b2 j hj2
        · intro v hv
          rcases b3 v hv with h1 | ⟨j, hj, s2, hs2, hv2, hv3⟩
          · rcases a3 v h1 with h2 | ⟨h3, h4⟩
            · exact Or.inl h2
            · rw [mem_sortWords] at h3
              exact Or.inr ⟨i, List.mem_cons_self _ _, s, hs, h3, h4⟩
          · exact Or.inr ⟨j, List.mem_cons_of_mem _ hj, s2, hs2, hv2, hv3⟩
        · intro n2 hn2
          rcases b4 n2 hn2 with h1 | ⟨j, hj, s2, hs2, v, hv1, hv2, hv3, hv4, hv5⟩
          · rcases a4 n2 h1 with h2 | ⟨v, hv1, hv2, hv3, hv4, hv5⟩
            · exact Or.inl h2
            · rw [mem_sortWords] at hv1
              exact Or.inr ⟨i, List.mem_cons_self _ _, s, hs, v, hv1, hv2,
                hv3, hv4, b1 hv5⟩
          · exact Or.inr ⟨j, List.mem_cons_of_mem _ hj, s2, hs2, v, hv1, hv2,
              fun hv6 => hv3 (a1 hv6), hv4, hv5⟩
        · intro v hv
          rcases b5 v hv with h1 | h2
          · rcases a5 v h1 with h3 | ⟨n2, hn2, hn3⟩
            · exact Or.inl h3
            · exact Or.inr ⟨n2, b6 _ hn2, hn3⟩
          · exact Or.inr h2

lemma consume_leaf_nodes_inl {endWord : Word} {wil : Nat → Char → Finset Word} :
    ∀ (nodes : List Node) (st : RoundState) (out : SearchOutcome),
    consume_leaf_nodes endWord wil nodes st = .inl out →
    out = .crashed ∨
      ∃ nd ∈ nodes, out = .found ((endWord :: nd).reverse) ∧
        endWord ∉ st.usedWords ∧
        ∃ i, i < (nodeValue nd).length ∧
          ∃ s, find_similar_words (nodeValue nd) i wil = some s ∧
            endWord ∈ s := by
  intro nodes
  induction nodes with
  | nil =>
    intro st out h
    simp [consume_leaf_nodes] at h
  | cons nd rest ih =>
    intro st out h
    simp only [consume_leaf_nodes] at h
    split at h
    · rename_i out2 hc
      have hout := Sum.inl.inj h
      subst hout
      rcases consume_positions_inl _ _ _ hc with h1 | ⟨h1, h2, i, hi, s, hs, hend⟩
      · exact Or.inl h1
      · exact Or.inr ⟨nd, List.mem_cons_self _ _, h1, h2, i,
          List.mem_range.mp hi, s, hs, hend⟩
    · rename_i st3 hc
      obtain ⟨a1, _, _, _, _, _⟩ := consume_positions_inr _ _ _ hc
      rcases ih _ _ h with h1 | ⟨nd2, hnd2, h2, h3, i, hi, s, hs, hend⟩
      · exact Or.inl h1
      · exact Or.inr ⟨nd2, List.mem_cons_of_mem _ hnd2, h2,
          fun hmem => h3 (a1 hmem), i, hi, s, hs, hend⟩

lemma consume_leaf_nodes_inr {endWord : Word} {wil : Nat → Char → Finset Word} :
    ∀ (nodes : List Node) (st st2 : RoundState),
    consume_leaf_nodes endWord wil nodes st = .inr st2 →
    st.usedWords ⊆ st2.usedWords ∧
    (∀ nd ∈ nodes, ∀ i, i < (nodeValue nd).length →
      ∃ s, find_similar_words (nodeValue nd) i wil = some s ∧
        ∀ v ∈ s, v ∈ st2.usedWords) ∧
    (∀ v ∈ st2.usedWords, v ∈ st.usedWords ∨
      ∃ nd ∈ nodes, ∃ i, i < (nodeValue nd).length ∧
        ∃ s, find_similar_words (nodeValue nd) i wil = some s ∧
          v ∈ s ∧ v ≠ endWord) ∧
    (∀ n2 ∈ st2.nextLeafNodes, n2 ∈ st.nextLeafNodes ∨
      ∃ nd ∈ nodes, ∃ i, i < (nodeValue nd).length ∧
        ∃ s, find_similar_words (nodeValue nd) i wil = some s ∧
          ∃ v, v ∈ s ∧ n2 = v :: nd ∧ v ∉ st.usedWords ∧ v ≠ endWord ∧
            v ∈ st2.usedWords) ∧
    (∀ v ∈ st2.usedWords, v ∈ st.usedWords ∨
      ∃ n2 ∈ st2.nextLeafNodes, nodeValue n2 = v) ∧
    (∀ n2 ∈ st.nextLeafNodes, n2 ∈ st2.nextLeafNodes) := by
  intro nodes
  induction nodes with
  | nil =>
    intro st st2 h
    simp only [consume_leaf_nodes] at h
    have hst := Sum.inr.inj h
    subst hst
    exact ⟨fun v hv => hv, by simp, fun v hv => Or.inl hv,
      fun n2 hn2 => Or.inl hn2, fun v hv => Or.inl hv, fun n2 hn2 => hn2⟩
  | cons nd rest ih =>
    intro st st2 h
    simp only [consume_leaf_nodes] at h
    split at h
    · exact absurd h (by simp)
    · rename_i st3 hc
      obtain ⟨a1, a2, a3, a4, a5, a6⟩ := consume_positions_inr _ _ _ hc
      obtain ⟨b1, b2, b3, b4, b5, b6⟩ := ih _ _ h
      refine ⟨fun v hv => b1 (a1 hv), ?_, ?_, ?_, ?_,
        fun n2 hn2 => b6 _ (a6 _ hn2)⟩
      · intro nd2 hnd2 i hi
        rcases List.mem_cons.mp hnd2 with rfl | hnd3
        · obtain ⟨s, hs, hsub⟩ := a2 i (List.mem_range.mpr hi)
          exact ⟨s, hs, fun v hv => b1 (hsub v hv)⟩
        · exact b2 nd2 hnd3 i hi
      · intro v hv
        rcases b3 v hv with h1 | ⟨nd2, hnd2, i, hi, s, hs, hv2, hv3⟩
        · rcases a3 v h1 with h2 | ⟨i, hi, s, hs, hv2, hv3⟩
          · exact Or.inl h2
          · exact Or.inr ⟨nd, List.mem_cons_self _ _, i, List.mem_range.mp hi,
              s, hs, hv2, hv3⟩
        · exact Or.inr ⟨nd2, List.mem_cons_of_mem _ hnd2, i, hi, s, hs,
            hv2, hv3⟩
      · intro n2 hn2
        rcases b4 n2 hn2 with h1 | ⟨nd2, hnd2, i, hi, s, hs, v, hv1, hv2, hv3,
          hv4, hv5⟩
        · rcases a4 n2 h1 with h2 | ⟨i, hi, s, hs, v, hv1, hv2, hv3, hv4, hv5⟩
          · exact Or.inl h2
          · exact Or.inr ⟨nd, List.mem_cons_self _ _, i, List.mem_range.mp hi,
              s, hs, v, hv1, hv2, hv3, hv4, b1 hv5⟩
        · exact Or.inr ⟨nd2, List.mem_cons_of_mem _ hnd2, i, hi, s, hs, v,
            hv1, hv2, fun hv6 => hv3 (a1 hv6), hv4, hv5⟩
      · intro v hv
        rcases b5 v hv with h1 | h2
        · rcases a5 v h1 with h3 | ⟨n2, hn2, hn3⟩
          · exact Or.inl h3
          · exact Or.inr ⟨n2, b6 _ hn2, hn3⟩
        · exact Or.inr h2

/-! Lemmas about the full search loop. -/


lemma validNode_value_mem {words : Finset Word} {startWord : Word} {nd : Node}
    (h : ValidNode words startWord nd) : nodeValue nd ∈ nd := by
  rcases nd with _ | ⟨a, t⟩
  · simp [ValidNode] at h
  · exact List.mem_cons_self _ _

lemma chain'_head_or_mem {words : Finset Word} :
    ∀ (l : List Word), l.Chain' (Adjacent words) →
    ∀ w ∈ l, l.head? = some w ∨ w ∈ words := by
  intro l
  induction l with
  | nil => intro _ w hw; exact absurd hw (List.not_mem_nil _)
  | cons a t ih =>
    intro hchain w hw
    rcases List.mem_cons.mp hw with rfl | hw2
    · exact Or.inl rfl
    · rcases t with _ | ⟨b, t2⟩
      · exact absurd hw2 (List.not_mem_nil _)
      · have hab : Adjacent words a b := (List.chain'_cons.mp hchain).1
        rcases ih (List.chain'_cons.mp hchain).2 w hw2 with h1 | h1
        · have : w = b := by simpa using h1.symm
          subst this
          exact Or.inr hab.1
        · exact Or.inr h1

lemma validNode_mem {words : Finset Word} {startWord : Word} {nd : Node}
    (h : ValidNode words startWord nd) :
    ∀ w ∈ nd, w = startWord ∨ w ∈ words := by
  intro w hw
  have hw2 : w ∈ nd.reverse := List.mem_reverse.mpr hw
  rcases chain'_head_or_mem _ h.2.1 w hw2 with h1 | h1
  · rw [List.head?_reverse, h.1] at h1
    exact Or.inl (by simpa using h1.symm)
  · exact Or.inr h1

lemma validNode_length {words : Finset Word} {startWord : Word}
    (Hlen : ∀ w ∈ words, w.length = startWord.length) {nd : Node}
    (h : ValidNode words startWord nd) :
    ∀ w ∈ nd, w.length = startWord.length := by
  intro w hw
  rcases validNode_mem h w hw with rfl | h1
  · rfl
  · exact Hlen w h1

lemma consume_positions_no_crash {endWord : Word}
    {wil : Nat → Char → Finset Word} {node : Node} {value : Word}
    (h2 : 2 ≤ value.length) :
    ∀ (positions : List Nat) (st : RoundState),
    consume_positions endWord wil node value positions st ≠ .inl .crashed := by
  intro positions
  induction positions with
  | nil =>
    intro st h
    simp [consume_positions] at h
  | cons i rest ih =>
    intro st h
    simp only [consume_positions] at h
    split at h
    · rename_i hnone
      obtain ⟨s, hs⟩ := find_similar_words_isSome i h2 wil
      rw [hs] at hnone
      exact absurd hnone (by simp)
    · split at h
      · rename_i out hc
        obtain ⟨h1, _, _⟩ := consume_similar_words_inl _ _ _ hc
        rw [h1] at h
        exact absurd (Sum.inl.inj h) (by simp)
      · exact ih _ h

lemma consume_leaf_nodes_no_crash {endWord : Word}
    {wil : Nat → Char → Finset Word} :
    ∀ (nodes : List Node) (st : RoundState),
    (∀ nd ∈ nodes, 2 ≤ (nodeValue nd).length) →
    consume_leaf_nodes endWord wil nodes st ≠ .inl .crashed := by
  intro nodes
  induction nodes with
  | nil =>
    intro st _ h
    simp [consume_leaf_nodes] at h
  | cons nd rest ih =>
    intro st hlen h
    simp only [consume_leaf_nodes] at h
    split at h
    · rename_i out hc
      have hout := Sum.inl.inj h
      subst hout
      exact consume_positions_no_crash (hlen nd (List.mem_cons_self _ _)) _ _ hc
    · exact ih _ (fun nd2 hnd2 => hlen nd2 (List.mem_cons_of_mem _ hnd2)) h

lemma search_loop_total (words : Finset Word) (startWord endWord : Word) :
    ∀ (fuel : Nat) (frontier : List Node) (used : Finset Word),
    used ⊆ insert startWord words →
    (insert startWord words).card < used.card + fuel →
    ∃ r, search_loop endWord (buildWil words) fuel frontier used = some r := by
  intro fuel
  induction fuel with
  | zero =>
    intro frontier used hsub hcard
    exact absurd (Finset.card_le_card hsub) (by omega)
  | succ fuel ih =>
    intro frontier used hsub hcard
    rw [search_loop]
    rcases hc : consume_leaf_nodes endWord (buildWil words) frontier
        ⟨[], used⟩ with out | st
    · exact ⟨out, rfl⟩
    · by_cases hnil : st.nextLeafNodes = []
      · refine ⟨SearchOutcome.noLadder, ?_⟩
        show (if st.nextLeafNodes = [] then some SearchOutcome.noLadder
          else search_loop endWord (buildWil words) fuel st.nextLeafNodes
            st.usedWords) = some SearchOutcome.noLadder
        rw [if_pos hnil]
      · obtain ⟨c1, c2, c3, c4, c5, c6⟩ := consume_leaf_nodes_inr _ _ _ hc
        have hsub2 : st.usedWords ⊆ insert startWord words := by
          intro v hv
          rcases c3 v hv with h1 | ⟨nd, _, i, _, s, hs, hv2, _⟩
          · exact hsub h1
          · exact Finset.mem_insert_of_mem (sims_subset_words hs hv2)
        obtain ⟨n2, hn2⟩ := List.exists_mem_of_ne_nil _ hnil
        have hgrow : used ⊂ st.usedWords := by
          rcases c4 n2 hn2 with h1 | ⟨nd, _, i, _, s, _, v, _, _, hv3, _, hv5⟩
          · exact absurd h1 (List.not_mem_nil _)
          · exact (Finset.ssubset_iff_of_subset c1).mpr ⟨v, hv5, hv3⟩
        have := Finset.card_lt_card hgrow
        obtain ⟨r, hr⟩ := ih st.nextLeafNodes st.usedWords hsub2 (by omega)
        refine ⟨r, ?_⟩
        show (if st.nextLeafNodes = [] then some SearchOutcome.noLadder
          else search_loop endWord (buildWil words) fuel st.nextLeafNodes
            st.usedWords) = some r
        rw [if_neg hnil]
        exact hr

lemma ladder_stays_in_used {words : Finset Word} {used : Finset Word}
    (closed : ∀ u ∈ used, ∀ v, Adjacent words u v → v ∈ used) :
    ∀ (l : List Word) (s : Word), l.head? = some s → s ∈ used →
    l.Chain' (Adjacent words) → ∀ e, l.getLast? = some e → e ∈ used := by
  intro l
  induction l with
  | nil =>
    intro s hs
    simp at hs
  | cons a t ih =>
    intro s hs hmem hchain e he
    have ha : a = s := by simpa using hs
    subst ha
    rcases t with _ | ⟨b, t2⟩
    · have : e = a := by simpa using he.symm
      subst this
      exact hmem
    · have hab : Adjacent words a b := (List.chain'_cons.mp hchain).1
      have hb : b ∈ used := closed a hmem b hab
      rw [List.getLast?_cons_cons] at he
      exact ih b rfl hb (List.chain'_cons.mp hchain).2 e he

lemma search_loop_noLadder {words : Finset Word} {startWord endWord : Word} :
    ∀ (fuel : Nat) (frontier : List Node) (used : Finset Word),
    startWord ∈ used →
    endWord ∉ used →
    (∀ u ∈ used, (∀ nd ∈ frontier, nodeValue nd ≠ u) →
      ∀ v, Adjacent words u v → v ∈ used) →
    search_loop endWord (buildWil words) fuel frontier used = some .noLadder →
    ∀ l, ¬ IsLadderFromTo words startWord endWord l := by
  intro fuel
  induction fuel with
  | zero =>
    intro frontier used _ _ _ h
    simp [search_loop] at h
  | succ fuel ih =>
    intro frontier used hstart hend hclosed h
    rw [search_loop] at h
    rcases hc : consume_leaf_nodes endWord (buildWil words) frontier
        ⟨[], used⟩ with out | st
    · rw [hc] at h
      have hout : out = SearchOutcome.noLadder := by
        simpa using h
      subst hout
      rcases consume_leaf_nodes_inl _ _ _ hc with h1 | ⟨nd, _, h1, _⟩
      · exact absurd h1 (by simp)
      · exact absurd h1 (by simp)
    · rw [hc] at h
      obtain ⟨c1, c2, c3, c4, c5, c6⟩ := consume_leaf_nodes_inr _ _ _ hc
      by_cases hnil : st.nextLeafNodes = []
      · -- frontier exhausted: the used set is closed under adjacency
        have hused_eq : st.usedWords = used := by
          apply Finset.Subset.antisymm
          · intro v hv
            rcases c5 v hv with h1 | ⟨n2, hn2, _⟩
            · exact h1
            · rw [hnil] at hn2
              exact absurd hn2 (List.not_mem_nil _)
          · exact c1
        have hall_closed : ∀ u ∈ used, ∀ v, Adjacent words u v → v ∈ used := by
          intro u hu v hadj
          by_cases hfr : ∀ nd ∈ frontier, nodeValue nd ≠ u
          · exact hclosed u hu hfr v hadj
          · push_neg at hfr
            obtain ⟨nd, hnd, hval⟩ := hfr
            obtain ⟨i, hi, himp⟩ := adjacent_mem_sims hadj
            rw [← hval] at hi
            obtain ⟨s, hs, hsub⟩ := c2 nd hnd i hi
            rw [hval] at hs
            rw [← hused_eq]
            exact hsub v (himp s hs)
        intro l hl
        have : endWord ∈ used :=
          ladder_stays_in_used hall_closed l startWord hl.1 hstart hl.2.2
            endWord hl.2.1
        exact hend this
      · have h2 : (if st.nextLeafNodes = [] then some SearchOutcome.noLadder
            else search_loop endWord (buildWil words) fuel st.nextLeafNodes
              st.usedWords) = some SearchOutcome.noLadder := h
        rw [if_neg hnil] at h2
        apply ih st.nextLeafNodes st.usedWords (c1 hstart) ?_ ?_ h2
        · intro hmem
          rcases c3 endWord hmem with h1 | ⟨_, _, _, _, _, _, _, h2⟩
          · exact hend h1
          · exact h2 rfl
        · intro u hu hval v hadj
          rcases c5 u hu with h1 | ⟨n2, hn2, hn3⟩
          · by_cases hfr : ∀ nd ∈ frontier, nodeValue nd ≠ u
            · exact c1 (hclosed u h1 hfr v hadj)
            · push_neg at hfr
              obtain ⟨nd, hnd, hval2⟩ := hfr
              obtain ⟨i, hi, himp⟩ := adjacent_mem_sims hadj
              rw [← hval2] at hi
              obtain ⟨s, hs, hsub⟩ := c2 nd hnd i hi
              rw [hval2] at hs
              exact hsub v (himp s hs)
          · exact absurd hn3 (hval n2 hn2)

lemma search_loop_found {words : Finset Word} {startWord endWord : Word}
    (Hlen : ∀ w ∈ words, w.length = startWord.length) :
    ∀ (fuel : Nat) (frontier : List Node) (used : Finset Word),
    (∀ nd ∈ frontier, ValidNode words startWord nd ∧ ∀ w ∈ nd, w ∈ used) →
    ∀ l, search_loop endWord (buildWil words) fuel frontier used =
      some (.found l) →
    IsLadderFromTo words startWord endWord l ∧ l.Nodup := by
  intro fuel
  induction fuel with
  | zero =>
    intro frontier used _ l h
    simp [search_loop] at h
  | succ fuel ih =>
    intro frontier used hinv l h
    rw [search_loop] at h
    rcases hc : consume_leaf_nodes endWord (buildWil words) frontier
        ⟨[], used⟩ with out | st
    · rw [hc] at h
      have hout : out = SearchOutcome.found l := by simpa using h
      subst hout
      rcases consume_leaf_nodes_inl _ _ _ hc with h1 |
        ⟨nd, hnd, h1, hend_used, i, hi, s, hs, hend_s⟩
      · simp at h1
      · obtain ⟨hvalid, hmem_used⟩ := hinv nd hnd
        obtain ⟨a, t, rfl⟩ : ∃ a t, nd = a :: t := by
          rcases nd with _ | ⟨a, t⟩
          · simp [ValidNode] at hvalid
          · exact ⟨a, t, rfl⟩
        have hl : l = (endWord :: a :: t).reverse := SearchOutcome.found.inj h1
        subst hl
        simp only [nodeValue, List.headI] at hi hs
        have ha_len : a.length = startWord.length :=
          validNode_length Hlen hvalid a (List.mem_cons_self _ _)
        have hadj : Adjacent words a endWord :=
          mem_sims_adjacent Hlen ha_len hs hend_s
        refine ⟨⟨?_, ?_, ?_⟩, ?_⟩
        · rw [List.head?_reverse, List.getLast?_cons_cons]
          exact hvalid.1
        · rw [List.getLast?_reverse]
          rfl
        · apply List.chain'_reverse.mpr
          exact List.chain'_cons.mpr
            ⟨hadj, List.chain'_reverse.mp hvalid.2.1⟩
        · rw [List.nodup_reverse]
          refine List.nodup_cons.mpr ⟨?_, hvalid.2.2⟩
          intro hmem
          exact hend_used (hmem_used _ hmem)
    · rw [hc] at h
      have h2 : (if st.nextLeafNodes = [] then some SearchOutcome.noLadder
          else search_loop endWord (buildWil words) fuel st.nextLeafNodes
            st.usedWords) = some (SearchOutcome.found l) := h
      by_cases hnil : st.nextLeafNodes = []
      · rw [if_pos hnil] at h2
        simp at h2
      · rw [if_neg hnil] at h2
        obtain ⟨c1, c2, c3, c4, c5, c6⟩ := consume_leaf_nodes_inr _ _ _ hc
        apply ih st.nextLeafNodes st.usedWords ?_ l h2
        intro nd2 hnd2
        rcases c4 nd2 hnd2 with h3 |
          ⟨nd, hnd, i, hi, s, hs, v, hv1, hv2, hv3, hv4, hv5⟩
        · exact absurd h3 (List.not_mem_nil _)
        · obtain ⟨hvalid, hmem_used⟩ := hinv nd hnd
          obtain ⟨a, t, rfl⟩ : ∃ a t, nd = a :: t := by
            rcases nd with _ | ⟨a, t⟩
            · simp [ValidNode] at hvalid
            · exact ⟨a, t, rfl⟩
          subst hv2
          simp only [nodeValue, List.headI] at hi hs
          have ha_len : a.length = startWord.length :=
            validNode_length Hlen hvalid a (List.mem_cons_self _ _)
          have hadj : Adjacent words a v :=
            mem_sims_adjacent Hlen ha_len hs hv1
          constructor
          · refine ⟨?_, ?_, ?_⟩
            · rw [List.getLast?_cons_cons]
              exact hvalid.1
            · apply List.chain'_reverse.mpr
              exact List.chain'_cons.mpr
                ⟨hadj, List.chain'_reverse.mp hvalid.2.1⟩
            · refine List.nodup_cons.mpr ⟨?_, hvalid.2.2⟩
              intro hmem
              exact hv3 (hmem_used _ hmem)
          · intro w hw
            rcases List.mem_cons.mp hw with rfl | hw2
            · exact hv5
            · exact c1 (hmem_used _ hw2)


lemma reachN_iff_ladder {words : Finset Word} {s : Word} :
    ∀ (k : Nat) (v : Word), ReachN words s k v ↔
      ∃ l, IsLadderFromTo words s v l ∧ l.length = k + 1 := by
  intro k
  induction k with
  | zero =>
    intro v
    constructor
    · intro h
      simp only [ReachN] at h
      refine ⟨[v], ⟨?_, rfl, List.chain'_singleton _⟩, rfl⟩
      simp [h]
    · rintro ⟨l, ⟨h1, h2, _⟩, hlen⟩
      obtain ⟨a, rfl⟩ := List.length_eq_one.mp hlen
      simp only [List.head?_cons, Option.some.injEq] at h1
      simp only [List.getLast?_singleton, Option.some.injEq] at h2
      simp only [ReachN]
      rw [← h1, ← h2]
  | succ k ihk =>
    intro v
    constructor
    · rintro ⟨u, hu, hadj⟩
      obtain ⟨l, hl, hlen⟩ := (ihk u).mp hu
      have hne : l ≠ [] := by
        intro he
        rw [he] at hlen
        simp at hlen
      refine ⟨l ++ [v], ⟨?_, ?_, ?_⟩, ?_⟩
      · rw [List.head?_append_of_ne_nil _ hne]
        exact hl.1
      · rw [List.getLast?_concat]
      · rw [List.chain'_append]
        refine ⟨hl.2.2, List.chain'_singleton _, ?_⟩
        intro x hx y hy
        rw [hl.2.1] at hx
        simp only [Option.mem_def, Option.some.injEq] at hx
        simp only [List.head?_cons, Option.mem_def, Option.some.injEq] at hy
        rw [hx] at hadj
        rw [hy] at hadj
        exact hadj
      · simp [hlen]
    · rintro ⟨l, ⟨h1, h2, h3⟩, hlen⟩
      rcases l.eq_nil_or_concat with rfl | ⟨l2, a, rfl⟩
      · simp at hlen
      · rw [List.concat_eq_append] at h1 h2 h3 hlen
        rw [List.getLast?_concat] at h2
        have ha : a = v := by simpa using h2
        subst ha
        have hl2_ne : l2 ≠ [] := by
          intro he
          rw [he] at hlen
          simp at hlen
        obtain ⟨u, hu⟩ : ∃ u, l2.getLast? = some u := by
          cases hgl : l2.getLast? with
          | none => exact absurd (List.getLast?_eq_none_iff.mp hgl) hl2_ne
          | some u => exact ⟨u, rfl⟩
        rw [List.head?_append_of_ne_nil _ hl2_ne] at h1
        obtain ⟨hc1, _, hlink⟩ := List.chain'_append.mp h3
        have hadj : Adjacent words u a :=
          hlink u (by rw [hu]; rfl) a rfl
        refine ⟨u, (ihk u).mpr ⟨l2, ⟨h1, hu, hc1⟩, ?_⟩, hadj⟩
        have : l2.length + 1 = k + 1 + 1 := by
          rw [← hlen]
          simp
        omega

lemma validNode_cons {words : Finset Word} {startWord : Word} {nd : Node}
    {v : Word} (hvalid : ValidNode words startWord nd)
    (hadj : Adjacent words (nodeValue nd) v)
    (hnotin : v ∉ nd) : ValidNode words startWord (v :: nd) := by
  obtain ⟨a, t, rfl⟩ : ∃ a t, nd = a :: t := by
    rcases nd with _ | ⟨a, t⟩
    · simp [ValidNode] at hvalid
    · exact ⟨a, t, rfl⟩
  refine ⟨?_, ?_, ?_⟩
  · rw [List.getLast?_cons_cons]
    exact hvalid.1
  · apply List.chain'_reverse.mpr
    exact List.chain'_cons.mpr ⟨hadj, List.chain'_reverse.mp hvalid.2.1⟩
  · exact List.nodup_cons.mpr ⟨hnotin, hvalid.2.2⟩

lemma search_loop_layered {words : Finset Word} {startWord endWord : Word}
    (Hlen : ∀ w ∈ words, w.length = startWord.length)
    (HL2 : 2 ≤ startWord.length) :
    ∀ (fuel k : Nat) (frontier : List Node) (used : Finset Word),
    frontier ≠ [] →
    (∀ nd ∈ frontier, ValidNode words startWord nd ∧ nd.length = k + 1 ∧
      ∀ w ∈ nd, w ∈ used) →
    (∀ v, v ∈ used ↔ ReachLe words startWord k v) →
    (∀ v ∈ used, (∀ nd ∈ frontier, nodeValue nd ≠ v) →
      ∃ j, j < k ∧ ReachN words startWord j v) →
    endWord ∉ used →
    ∀ r, search_loop endWord (buildWil words) fuel frontier used = some r →
    r ≠ .crashed ∧
    (r = .noLadder → ∀ l, ¬ IsLadderFromTo words startWord endWord l) ∧
    (∀ l, r = .found l →
      ∀ l2, IsLadderFromTo words startWord endWord l2 →
        l.length ≤ l2.length) := by
  intro fuel
  induction fuel with
  | zero =>
    intro k frontier used _ _ _ _ _ r h
    simp [search_loop] at h
  | succ fuel ih =>
    intro k frontier used hfne hm1 hm2 hm3 hm4 r h
    rw [search_loop] at h
    have hfval_len : ∀ nd ∈ frontier,
        (nodeValue nd).length = startWord.length := by
      intro nd hnd
      obtain ⟨hv, _, _⟩ := hm1 nd hnd
      exact validNode_length Hlen hv (nodeValue nd) (validNode_value_mem hv)
    have hflen : ∀ nd ∈ frontier, 2 ≤ (nodeValue nd).length := by
      intro nd hnd
      rw [hfval_len nd hnd]
      exact HL2
    rcases hc : consume_leaf_nodes endWord (buildWil words) frontier
        ⟨[], used⟩ with out | st
    · rw [hc] at h
      have hout : out = r := by simpa using h
      subst hout
      rcases consume_leaf_nodes_inl _ _ _ hc with h1 |
        ⟨nd, hnd, h1, hend_used, i, hi, s, hs, hend_s⟩
      · rw [h1] at hc
        exact absurd hc (consume_leaf_nodes_no_crash frontier ⟨[], used⟩ hflen)
      · refine ⟨by rw [h1]; simp, ?_, ?_⟩
        · intro heq
          rw [h1] at heq
          exact absurd heq (by simp)
        · intro l hlr l2 hl2
          rw [h1] at hlr
          have hl : ((endWord :: nd).reverse : List Word) = l :=
            SearchOutcome.found.inj hlr
          obtain ⟨hvalid, hlen_nd, hmem_used⟩ := hm1 nd hnd
          have hllen : l.length = k + 2 := by
            rw [← hl]
            simp [hlen_nd]
          have hl2_ne : l2 ≠ [] := by
            intro he
            rw [he] at hl2
            simp [IsLadderFromTo] at hl2
          have hl2_pos : 1 ≤ l2.length := by
            rcases l2 with _ | ⟨b, t2⟩
            · exact absurd rfl hl2_ne
            · simp
          have hreach : ReachN words startWord (l2.length - 1) endWord :=
            (reachN_iff_ladder _ _).mpr ⟨l2, hl2, by omega⟩
          by_contra hlt
          have hle : l2.length - 1 ≤ k := by omega
          have : endWord ∈ used :=
            (hm2 endWord).mpr ⟨l2.length - 1, hle, hreach⟩
          exact hm4 this
    · rw [hc] at h
      have h2 : (if st.nextLeafNodes = [] then some SearchOutcome.noLadder
          else search_loop endWord (buildWil words) fuel st.nextLeafNodes
            st.usedWords) = some r := h
      obtain ⟨c1, c2, c3, c4, c5, c6⟩ := consume_leaf_nodes_inr _ _ _ hc
      by_cases hnil : st.nextLeafNodes = []
      · rw [if_pos hnil] at h2
        have hr : SearchOutcome.noLadder = r := by simpa using h2
        subst hr
        refine ⟨by simp, ?_, by intro l hl; simp at hl⟩
        intro _ l hl
        have hused_eq : st.usedWords = used := by
          apply Finset.Subset.antisymm
          · intro v hv
            rcases c5 v hv with h3 | ⟨n2, hn2, _⟩
            · exact h3
            · rw [hnil] at hn2
              exact absurd hn2 (List.not_mem_nil _)
          · exact c1
        have hall_closed : ∀ u ∈ used, ∀ v, Adjacent words u v → v ∈ used := by
          intro u hu v hadj
          by_cases hfr : ∃ nd ∈ frontier, nodeValue nd = u
          · obtain ⟨nd, hnd, hval⟩ := hfr
            obtain ⟨i, hi, himp⟩ := adjacent_mem_sims hadj
            rw [← hval] at hi
            obtain ⟨s, hs, hsub⟩ := c2 nd hnd i hi
            rw [hval] at hs
            rw [← hused_eq]
            exact hsub v (himp s hs)
          · push_neg at hfr
            obtain ⟨j, hj, hr2⟩ := hm3 u hu hfr
            exact (hm2 v).mpr ⟨j + 1, by omega, ⟨u, hr2, hadj⟩⟩
        have hstart_used : startWord ∈ used :=
          (hm2 startWord).mpr ⟨0, by omega, rfl⟩
        exact hm4 (ladder_stays_in_used hall_closed l startWord hl.1
          hstart_used hl.2.2 endWord hl.2.1)
      · rw [if_neg hnil] at h2
        refine ih (k + 1) st.nextLeafNodes st.usedWords hnil ?_ ?_ ?_ ?_ r h2
        · -- the new frontier consists of valid nodes one level deeper
          intro nd2 hnd2
          rcases c4 nd2 hnd2 with h3 |
            ⟨nd, hnd, i, hi, s, hs, v, hv1, hv2, hv3, hv4, hv5⟩
          · exact absurd h3 (List.not_mem_nil _)
          · obtain ⟨hvalid, hlen_nd, hmem_used⟩ := hm1 nd hnd
            subst hv2
            have hadj : Adjacent words (nodeValue nd) v :=
              mem_sims_adjacent Hlen (hfval_len nd hnd) hs hv1
            refine ⟨validNode_cons hvalid hadj ?_, by simp [hlen_nd], ?_⟩
            · intro hmem
              exact hv3 (hmem_used _ hmem)
            · intro w hw
              rcases List.mem_cons.mp hw with rfl | hw2
              · exact hv5
              · exact c1 (hmem_used _ hw2)
        · -- the used set is exactly the radius-(k+1) ball
          intro v2
          constructor
          · intro hv2
            rcases c3 v2 hv2 with h3 |
              ⟨nd, hnd, i, hi, s, hs, hmem_s, hne⟩
            · obtain ⟨j, hj, hr2⟩ := (hm2 v2).mp h3
              exact ⟨j, by omega, hr2⟩
            · obtain ⟨hvalid, _, hmem_used⟩ := hm1 nd hnd
              have hadj : Adjacent words (nodeValue nd) v2 :=
                mem_sims_adjacent Hlen (hfval_len nd hnd) hs hmem_s
              have hu_used : nodeValue nd ∈ used :=
                hmem_used _ (validNode_value_mem hvalid)
              obtain ⟨j, hj, hr2⟩ := (hm2 _).mp hu_used
              exact ⟨j + 1, by omega, ⟨nodeValue nd, hr2, hadj⟩⟩
          · rintro ⟨j, hj, hr2⟩
            by_cases hjk : j ≤ k
            · exact c1 ((hm2 v2).mpr ⟨j, hjk, hr2⟩)
            · have hjeq : j = k + 1 := by omega
              subst hjeq
              obtain ⟨u, hu_r, hadj⟩ := hr2
              have hu_used : u ∈ used := (hm2 u).mpr ⟨k, le_refl _, hu_r⟩
              by_cases hfr : ∃ nd ∈ frontier, nodeValue nd = u
              · obtain ⟨nd, hnd, hval⟩ := hfr
                obtain ⟨i, hi, himp⟩ := adjacent_mem_sims hadj
                rw [← hval] at hi
                obtain ⟨s, hs, hsub⟩ := c2 nd hnd i hi
                rw [hval] at hs
                exact hsub v2 (himp s hs)
              · push_neg at hfr
                obtain ⟨j2, hj2, hr3⟩ := hm3 u hu_used hfr
                exact c1 ((hm2 v2).mpr ⟨j2 + 1, by omega, ⟨u, hr3, hadj⟩⟩)
        · -- non-frontier used words lie strictly inside the ball
          intro v2 hv2 hval
          rcases c5 v2 hv2 with h3 | ⟨n2, hn2, hn3⟩
          · obtain ⟨j, hj, hr2⟩ := (hm2 v2).mp h3
            exact ⟨j, by omega, hr2⟩
          · exact absurd hn3 (hval n2 hn2)
        · -- the end word is still unused
          intro hmem
          rcases c3 endWord hmem with h3 | ⟨_, _, _, _, _, _, _, hne⟩
          · exact hm4 h3
          · exact hne rfl

/-- Initial state invariants of `find_shortest_solution`, bundled. -/
lemma initial_invariants (words : Finset Word) {startWord endWord : Word}
    (Hne : startWord ≠ endWord) :
    (∀ nd ∈ ([[startWord]] : List Node), ValidNode words startWord nd ∧
      nd.length = 0 + 1 ∧ ∀ w ∈ nd, w ∈ ({startWord} : Finset Word)) ∧
    (∀ v, v ∈ ({startWord} : Finset Word) ↔
      ReachLe words startWord 0 v) ∧
    (∀ v ∈ ({startWord} : Finset Word),
      (∀ nd ∈ ([[startWord]] : List Node), nodeValue nd ≠ v) →
      ∃ j, j < 0 ∧ ReachN words startWord j v) ∧
    endWord ∉ ({startWord} : Finset Word) := by
  refine ⟨?_, ?_, ?_, ?_⟩
  · intro nd hnd
    have : nd = [startWord] := by simpa using hnd
    subst this
    refine ⟨⟨rfl, ?_, by simp⟩, rfl, ?_⟩
    · simp only [List.reverse_singleton]
      exact List.chain'_singleton _
    · intro w hw
      have : w = startWord := by simpa using hw
      subst this
      exact Finset.mem_singleton_self _
  · intro v
    constructor
    · intro hv
      have : v = startWord := by simpa using hv
      subst this
      exact ⟨0, le_refl _, rfl⟩
    · rintro ⟨j, hj, hr⟩
      interval_cases j
      have : v = startWord := hr
      subst this
      exact Finset.mem_singleton_self _
  · intro v hv hval
    have hv2 : v = startWord := by simpa using hv
    exact absurd hv2.symm (hval [startWord] (by simp))
  · intro hmem
    have : endWord = startWord := by simpa using hmem
    exact Hne this.symm

/-- Correctness of `find_shortest_solution` on an equal-length dictionary
of words of length at least two: if some ladder connects the (distinct)
start and end words, the function returns a shortest one, and it is a
duplicate-free genuine ladder. -/
lemma find_correct {words : Finset Word} {startWord endWord : Word}
    (Hlen : ∀ w ∈ words, w.length = startWord.length)
    (HL2 : 2 ≤ startWord.length)
    (Hne : startWord ≠ endWord)
    (Hex : ∃ l, IsLadderFromTo words startWord endWord l) :
    ∃ l, find_shortest_solution startWord endWord words =
        some (.found l) ∧
      IsLadderFromTo words startWord endWord l ∧ l.Nodup ∧
      ∀ l2, IsLadderFromTo words startWord endWord l2 →
        l.length ≤ l2.length := by
  obtain ⟨r, hr⟩ := search_loop_total words startWord endWord
      (words.card + 1) [[startWord]] {startWord}
      (Finset.singleton_subset_iff.mpr (Finset.mem_insert_self _ _))
      (by
        have h := Finset.card_insert_le startWord words
        rw [Finset.card_singleton]
        omega)
  obtain ⟨hm1, hm2, hm3, hm4⟩ :=
    initial_invariants words Hne
  have hlay := search_loop_layered Hlen HL2 (words.card + 1) 0 [[startWord]]
    {startWord} (by simp) hm1 hm2 hm3 hm4 r hr
  cases r with
  | found l =>
    have hsound := search_loop_found Hlen (words.card + 1) [[startWord]]
      {startWord} (fun nd hnd => ⟨(hm1 nd hnd).1, (hm1 nd hnd).2.2⟩) l hr
    exact ⟨l, hr, hsound.1, hsound.2, hlay.2.2 l rfl⟩
  | noLadder =>
    obtain ⟨l, hl⟩ := Hex
    exact absurd hl (hlay.2.1 rfl l)
  | crashed =>
    exact absurd rfl hlay.1

/-! Ladder reversal: the underlying adjacency is symmetric, so a ladder
between two dictionary words reverses into a ladder of the same length. -/

lemma isLadder_mem {words : Finset Word} {s e : Word} {l : List Word}
    (h : IsLadderFromTo words s e l) (hs : s ∈ words) :
    ∀ w ∈ l, w ∈ words := by
  intro w hw
  rcases chain'_head_or_mem l h.2.2 w hw with h1 | h1
  · rw [h.1] at h1
    have : s = w := by simpa using h1
    subst this
    exact hs
  · exact h1

lemma isLadder_end_mem {words : Finset Word} {s e : Word} {l : List Word}
    (h : IsLadderFromTo words s e l) (hne : s ≠ e) : e ∈ words := by
  have he_mem : e ∈ l := List.mem_of_mem_getLast? (by simp [h.2.1])
  rcases chain'_head_or_mem l h.2.2 e he_mem with h1 | h1
  · rw [h.1] at h1
    exact absurd (by simpa using h1 : s = e) hne
  · exact h1

lemma chain'_flip_adjacent {words : Finset Word} :
    ∀ (l : List Word), l.Chain' (Adjacent words) → (∀ w ∈ l, w ∈ words) →
    l.Chain' (flip (Adjacent words)) := by
  intro l
  induction l with
  | nil => exact fun _ _ => List.chain'_nil
  | cons a t ih =>
    intro hc hmem
    rcases t with _ | ⟨b, t2⟩
    · exact List.chain'_singleton _
    · refine List.chain'_cons.mpr ⟨?_, ih (List.chain'_cons.mp hc).2
        (fun w hw => hmem w (List.mem_cons_of_mem _ hw))⟩
      have hab := (List.chain'_cons.mp hc).1
      exact ⟨hmem a (List.mem_cons_self _ _), oneAway_symm hab.2⟩

lemma isLadder_reverse {words : Finset Word} {s e : Word} {l : List Word}
    (h : IsLadderFromTo words s e l) (hs : s ∈ words) :
    IsLadderFromTo words e s l.reverse := by
  refine ⟨?_, ?_, ?_⟩
  · rw [List.head?_reverse]
    exact h.2.1
  · rw [List.getLast?_reverse]
    exact h.1
  · exact List.chain'_reverse.mpr
      (chain'_flip_adjacent l h.2.2 (isLadder_mem h hs))

lemma alist_get_set {α β : Type} [DecidableEq α] :
    ∀ (l : List (α × β)) (k k2 : α) (v : β),
    alist_get (alist_set l k v) k2 =
      if k = k2 then some v else alist_get l k2 := by
  intro l
  induction l with
  | nil =>
    intro k k2 v
    simp [alist_set, alist_get]
  | cons p t ih =>
    intro k k2 v
    obtain ⟨a, b⟩ := p
    by_cases hak : a = k
    · subst hak
      by_cases hk2 : a = k2 <;>
        simp [alist_set, alist_get, hk2, ih]
    · by_cases hak2 : a = k2
      · subst hak2
        have hkk2 : k ≠ a := fun h => hak h.symm
        simp [alist_set, alist_get, hak, hkk2, ih]
      · by_cases hkk2 : k = k2 <;>
          simp [alist_set, alist_get, hak, hak2, hkk2, ih]

lemma wil_lookup_fst (m : OuterDD) (i : Nat) (c : Char) :
    (wil_lookup m i c).1 = wil_fun m i c := by
  unfold wil_lookup
  cases h1 : alist_get m i with
  | none =>
    show ∅ = wil_fun m i c
    unfold wil_fun
    rw [h1]
    simp [alist_get]
  | some inn =>
    show (match alist_get inn c with
      | none => ((∅ : Finset Word), alist_set m i (alist_set inn c ∅))
      | some s => (s, m)).1 = wil_fun m i c
    cases h2 : alist_get inn c with
    | none =>
      show ∅ = wil_fun m i c
      unfold wil_fun
      rw [h1]
      simp [h2]
    | some s =>
      show s = wil_fun m i c
      unfold wil_fun
      rw [h1]
      simp [h2]

lemma wil_lookup_snd (m : OuterDD) (i : Nat) (c : Char) (j : Nat) (d : Char) :
    wil_fun (wil_lookup m i c).2 j d = wil_fun m j d := by
  unfold wil_lookup
  cases h1 : alist_get m i with
  | none =>
    show wil_fun (alist_set m i [(c, ∅)]) j d = wil_fun m j d
    unfold wil_fun
    rw [alist_get_set]
    by_cases hij : i = j
    · subst hij
      rw [if_pos rfl, h1]
      by_cases hcd : c = d <;> simp [alist_get, hcd]
    · rw [if_neg hij]
  | some inn =>
    show wil_fun (match alist_get inn c with
      | none => ((∅ : Finset Word), alist_set m i (alist_set inn c ∅))
      | some s => (s, m)).2 j d = wil_fun m j d
    cases h2 : alist_get inn c with
    | none =>
      show wil_fun (alist_set m i (alist_set inn c ∅)) j d = wil_fun m j d
      unfold wil_fun
      rw [alist_get_set]
      by_cases hij : i = j
      · subst hij
        rw [if_pos rfl, h1]
        simp only [Option.getD_some, alist_get_set]
        by_cases hcd : c = d
        · subst hcd
          rw [if_pos rfl, h2]
          rfl
        · rw [if_neg hcd]
      · rw [if_neg hij]
    | some s =>
      show wil_fun m j d = wil_fun m j d
      rfl

lemma run_lookups_fun (ops : List (Nat × Char)) :
    ∀ (m : OuterDD) (j : Nat) (d : Char),
    wil_fun (run_lookups m ops) j d = wil_fun m j d := by
  induction ops with
  | nil => intro m j d; rfl
  | cons p t ih =>
    intro m j d
    show wil_fun (run_lookups (wil_lookup m p.1 p.2).2 t) j d = wil_fun m j d
    rw [ih, wil_lookup_snd]

lemma wil_fun_dd_add (m : OuterDD) (i : Nat) (c : Char) (w : Word)
    (j : Nat) (d : Char) :
    wil_fun (dd_add m i c w) j d =
      if i = j ∧ c = d then insert w (wil_fun m i c)
      else wil_fun m j d := by
  unfold dd_add wil_fun
  rw [alist_get_set]
  by_cases hij : i = j
  · subst hij
    rw [if_pos rfl]
    simp only [Option.getD_some, alist_get_set]
    by_cases hcd : c = d
    · subst hcd
      simp
    · simp [hcd]
  · rw [if_neg hij]
    simp [hij]

lemma mem_fold_word (w : Word) :
    ∀ (pairs : List (Nat × Char)) (m : OuterDD) (j : Nat) (d : Char)
      (v : Word),
    v ∈ wil_fun (pairs.foldl (fun m2 p => dd_add m2 p.1 p.2 w) m) j d ↔
      v ∈ wil_fun m j d ∨ (v = w ∧ (j, d) ∈ pairs) := by
  intro pairs
  induction pairs with
  | nil =>
    intro m j d v
    simp
  | cons p t ih =>
    intro m j d v
    show v ∈ wil_fun (t.foldl (fun m2 p => dd_add m2 p.1 p.2 w)
      (dd_add m p.1 p.2 w)) j d ↔ _
    rw [ih]
    rw [wil_fun_dd_add]
    by_cases hpd : p.1 = j ∧ p.2 = d
    · rw [if_pos hpd]
      simp only [Finset.mem_insert, List.mem_cons]
      constructor
      · rintro ((rfl | hv) | hv)
        · exact Or.inr ⟨rfl, Or.inl (by
            rw [← hpd.1, ← hpd.2])⟩
        · rw [hpd.1, hpd.2] at hv
          exact Or.inl hv
        · exact Or.inr ⟨hv.1, Or.inr hv.2⟩
      · rintro (hv | ⟨rfl, (hp | ht)⟩)
        · rw [← hpd.1, ← hpd.2] at hv
          exact Or.inl (Or.inr hv)
        · exact Or.inl (Or.inl rfl)
        · exact Or.inr ⟨rfl, ht⟩
    · rw [if_neg hpd]
      simp only [List.mem_cons]
      constructor
      · rintro (hv | ⟨rfl, ht⟩)
        · exact Or.inl hv
        · exact Or.inr ⟨rfl, Or.inr ht⟩
      · rintro (hv | ⟨rfl, (hp | ht)⟩)
        · exact Or.inl hv
        · exact absurd ⟨congrArg Prod.fst hp.symm, congrArg Prod.snd hp.symm⟩ hpd
        · exact Or.inr ⟨rfl, ht⟩

lemma mem_wil_fun_build (ws : List Word) (j : Nat) (d : Char) (v : Word) :
    v ∈ wil_fun (build_words_by_indexed_letter ws) j d ↔
      v ∈ ws ∧ v.get? j = some d := by
  suffices h : ∀ (m : OuterDD),
      v ∈ wil_fun (ws.foldl
        (fun m2 w => w.enum.foldl (fun m3 p => dd_add m3 p.1 p.2 w) m2) m)
        j d ↔
      v ∈ wil_fun m j d ∨ (v ∈ ws ∧ v.get? j = some d) by
    rw [build_words_by_indexed_letter, h]
    simp [wil_fun, alist_get]
  induction ws with
  | nil => intro m; simp
  | cons w t ih =>
    intro m
    show v ∈ wil_fun (t.foldl _
      (w.enum.foldl (fun m3 p => dd_add m3 p.1 p.2 w) m)) j d ↔ _
    rw [ih, mem_fold_word]
    have henum : ((j, d) ∈ w.enum) ↔ w.get? j = some d := by
      rw [List.mk_mem_enum_iff_getElem?, ← List.get?_eq_getElem?]
    constructor
    · rintro ((hv | ⟨rfl, he⟩) | ⟨hv, hg⟩)
      · exact Or.inl hv
      · exact Or.inr ⟨List.mem_cons_self _ _, henum.mp he⟩
      · exact Or.inr ⟨List.mem_cons_of_mem _ hv, hg⟩
    · rintro (hv | ⟨hmem, hg⟩)
      · exact Or.inl (Or.inl hv)
      · rcases List.mem_cons.mp hmem with rfl | hmem2
        · exact Or.inl (Or.inr ⟨rfl, henum.mpr hg⟩)
        · exact Or.inr ⟨hmem2, hg⟩

/-- The stateful `defaultdict` construction and the extensional function
used by the search agree. -/
lemma wil_fun_build (ws : List Word) (j : Nat) (d : Char) :
    wil_fun (build_words_by_indexed_letter ws) j d =
      buildWil ws.toFinset j d := by
  apply Finset.ext
  intro v
  rw [mem_wil_fun_build]
  simp [buildWil, Finset.mem_filter, List.mem_toFinset]


lemma alist_get_append {α β : Type} [DecidableEq α] :
    ∀ (l1 l2 : List (α × β)) (k : α),
    alist_get (l1 ++ l2) k =
      match alist_get l1 k with
      | some v => some v
      | none => alist_get l2 k := by
  intro l1
  induction l1 with
  | nil => intro l2 k; rfl
  | cons p t ih =>
    intro l2 k
    obtain ⟨a, b⟩ := p
    by_cases hak : a = k
    · simp [alist_get, hak]
    · simp only [List.cons_append, alist_get, if_neg hak]
      exact ih l2 k

lemma cached_consistent {st : CacheState}
    {wil : Nat → Char → Finset Word} (h : CacheConsistent st wil)
    (w : Word) (i : Nat) :
    (∀ r, find_similar_words w i wil = some r →
      ∃ st2, cached_find_similar_words st w i wil = some (r, st2) ∧
        CacheConsistent st2 wil) ∧
    (find_similar_words w i wil = none →
      cached_find_similar_words st w i wil = none) := by
  unfold cached_find_similar_words
  cases h0 : alist_get st (w, i) with
  | some r0 =>
    have hr0 := h w i r0 h0
    constructor
    · intro r hr
      rw [hr0] at hr
      have : r0 = r := by simpa using hr
      subst this
      exact ⟨st, rfl, h⟩
    · intro hr
      rw [hr0] at hr
      simp at hr
  | none =>
    constructor
    · intro r hr
      rw [hr]
      refine ⟨st ++ [((w, i), r)], rfl, ?_⟩
      intro w2 i2 r2 h2
      rw [alist_get_append] at h2
      cases h3 : alist_get st (w2, i2) with
      | some r3 =>
        rw [h3] at h2
        have : r3 = r2 := by simpa using h2
        subst this
        exact h w2 i2 r3 h3
      | none =>
        rw [h3] at h2
        simp only [alist_get] at h2
        by_cases hk : (w, i) = (w2, i2)
        · rw [if_pos hk] at h2
          have hr2 : r = r2 := by simpa using h2
          obtain ⟨hw2, hi2⟩ := Prod.mk.injEq .. ▸ hk
          subst hr2
          rw [← hw2, ← hi2]
          exact hr
        · rw [if_neg hk] at h2
          simp [alist_get] at h2
    · intro hr
      rw [hr]

/-! The claim theorems. -/

/-- C1 (amended): for every finite dictionary of equal-length words of
length at least two and every query pair `(start, end)` with
`start ≠ end` such that at least one ladder connects `start` to `end`,
`find_shortest_solution` returns a ladder from `start` to `end` of
minimal length: no ladder has fewer steps.  (The amendment restricts the
word length to at least two: on single-letter dictionaries the vacuous
`set.intersection()` call raises `TypeError` instead, see the
counterexample.) -/
theorem c1_finds_shortest_ladder {words : Finset Word}
    {startWord endWord : Word}
    (Hlen : ∀ w ∈ words, w.length = startWord.length)
    (HL2 : 2 ≤ startWord.length)
    (Hne : startWord ≠ endWord)
    (Hex : ∃ l, IsLadderFromTo words startWord endWord l) :
    ∃ l, find_shortest_solution startWord endWord words =
        some (SearchOutcome.found l) ∧
      IsLadderFromTo words startWord endWord l ∧
      ∀ l2, IsLadderFromTo words startWord endWord l2 →
        l.length ≤ l2.length := by
  obtain ⟨l, h1, h2, _, h4⟩ := find_correct Hlen HL2 Hne Hex
  exact ⟨l, h1, h2, h4⟩

/-- C1 witness: on the dictionary `{ab, bb}` the query `(ab, bb)` has a
ladder, and the theorem applies. -/
theorem c1_witness :
    ∃ l, find_shortest_solution ['a','b'] ['b','b']
        {(['a','b'] : Word), ['b','b']} = some (SearchOutcome.found l) ∧
      IsLadderFromTo {(['a','b'] : Word), ['b','b']} ['a','b'] ['b','b'] l ∧
      ∀ l2, IsLadderFromTo {(['a','b'] : Word), ['b','b']}
        ['a','b'] ['b','b'] l2 → l.length ≤ l2.length :=
  c1_finds_shortest_ladder (by decide) (by decide) (by decide)
    ⟨[['a','b'], ['b','b']], by decide⟩

/-- C1 counterexample: on the single-letter dictionary `{a, b}` a
one-step ladder connects `a` to `b`, yet the search propagates the
`TypeError` from `set.intersection()` with no arguments
(`SearchOutcome.crashed`) instead of returning that ladder. -/
theorem c1_counterexample :
    IsLadderFromTo {(['a'] : Word), ['b']} ['a'] ['b'] [['a'], ['b']] ∧
    (['a'] : Word) ≠ ['b'] ∧
    find_shortest_solution ['a'] ['b'] {(['a'] : Word), ['b']} =
      some SearchOutcome.crashed := by
  refine ⟨?_, ?_, ?_⟩ <;> decide

/-- C2: for every word `w` of length at least two, every position `i`
within `w`, and every index built from a word set of words of `w`'s
length, `find_similar_words w i` returns exactly the dictionary words
that agree with `w` at every position other than `i` and are not `w`
itself; in particular `w` is never a member of the result. -/
theorem c2_similar_words_exact {words : Finset Word} {w : Word} {i : Nat}
    (Hlen : ∀ v ∈ words, v.length = w.length)
    (H2 : 2 ≤ w.length) (_Hi : i < w.length) :
    ∃ s, find_similar_words w i (buildWil words) = some s ∧ w ∉ s ∧
      ∀ v, v ∈ s ↔ v ∈ words ∧ v ≠ w ∧
        ∀ j, j ≠ i → v.get? j = w.get? j := by
  obtain ⟨s, hs⟩ := find_similar_words_isSome i H2 (buildWil words)
  refine ⟨s, hs, ?_, ?_⟩
  · intro hmem
    exact ((mem_find_similar_words hs w).mp hmem).2.1 rfl
  · intro v
    rw [mem_find_similar_words hs]
    constructor
    · rintro ⟨h1, h2, h3⟩
      refine ⟨h1, h2, ?_⟩
      intro j hj
      by_cases hjl : j < w.length
      · exact h3 j hjl hj
      · have hv_len : v.length = w.length := Hlen v h1
        rw [List.get?_eq_none.mpr (by omega), List.get?_eq_none.mpr (by omega)]
    · rintro ⟨h1, h2, h3⟩
      exact ⟨h1, h2, fun j _ hj => h3 j hj⟩

/-- C2 witness: querying `ab` at position 0 over `{ab, bb, cb, ba}`. -/
theorem c2_witness :
    ∃ s, find_similar_words ['a','b'] 0
        (buildWil {(['a','b'] : Word), ['b','b'], ['c','b'], ['b','a']}) =
        some s ∧
      (['a','b'] : Word) ∉ s ∧
      ∀ v, v ∈ s ↔
        v ∈ ({(['a','b'] : Word), ['b','b'], ['c','b'], ['b','a']} :
          Finset Word) ∧ v ≠ ['a','b'] ∧
        ∀ j, j ≠ 0 → v.get? j = (['a','b'] : Word).get? j :=
  c2_similar_words_exact (by decide) (by decide) (by decide)

/-- C3 (amended): for every dictionary and every query pair with
`start ≠ end`, if `find_shortest_solution` raises its `NoLadderExists`
failure (the `ValueError`, modelled `SearchOutcome.noLadder`), then no
ladder of any length connects `start` to `end` under
one-letter-substitution adjacency restricted to the dictionary; the
failure is raised exactly when the frontier is exhausted (the
`next_leaf_nodes` list is empty) without producing the end word, which is
the only program point producing this outcome.  (The amendment adds
`start ≠ end`: for `start = end` the failure is raised even though the
trivial ladder connects the pair, see the counterexample.) -/
theorem c3_noLadder_complete {words : Finset Word}
    {startWord endWord : Word} (Hne : startWord ≠ endWord)
    (h : find_shortest_solution startWord endWord words =
      some SearchOutcome.noLadder) :
    ∀ l, ¬ IsLadderFromTo words startWord endWord l := by
  apply search_loop_noLadder (words.card + 1) [[startWord]] {startWord}
      (Finset.mem_singleton_self _) ?_ ?_ h
  · intro hmem
    have : endWord = startWord := by simpa using hmem
    exact Hne this.symm
  · intro u hu hval v hadj
    have hu2 : u = startWord := by simpa using hu
    exact absurd hu2.symm (hval [startWord] (by simp))

/-- C3 witness: the spec's own no-solution scenario, dictionary
`{cog, dog, hit, hot, log}` (no `dot`) and query `(hot, dog)`; in
particular `hot → dot → dog` is not a ladder there. -/
theorem c3_witness :
    ¬ IsLadderFromTo
      {(['c','o','g'] : Word), ['d','o','g'], ['h','i','t'], ['h','o','t'],
        ['l','o','g']} ['h','o','t'] ['d','o','g']
      [['h','o','t'], ['d','o','t'], ['d','o','g']] :=
  c3_noLadder_complete (by decide) (by decide)
    [['h','o','t'], ['d','o','t'], ['d','o','g']]

/-- C3 counterexample: with dictionary `{cat, bat}` and the pair
`(cat, cat)`, the `ValueError` is raised although the ladder
`cat → bat → cat` (and the zero-step ladder `cat`) connects the pair. -/
theorem c3_counterexample :
    find_shortest_solution ['c','a','t'] ['c','a','t']
        {(['c','a','t'] : Word), ['b','a','t']} =
      some SearchOutcome.noLadder ∧
    IsLadderFromTo {(['c','a','t'] : Word), ['b','a','t']}
      ['c','a','t'] ['c','a','t']
      [['c','a','t'], ['b','a','t'], ['c','a','t']] ∧
    IsLadderFromTo {(['c','a','t'] : Word), ['b','a','t']}
      ['c','a','t'] ['c','a','t'] [['c','a','t']] := by
  refine ⟨?_, ?_, ?_⟩ <;> decide

/-- C4 (amended): for the single-word dictionary `{helm}` and the query
`(helm, helm)`, `find_shortest_solution` raises the `NoLadderExists`
`ValueError` rather than returning a trivial zero-step ladder: the start
word is pre-inserted into `used_words` and candidates equal to a used
word are filtered out, so the end word can never be produced. -/
theorem c4_same_word_raises :
    find_shortest_solution ['h','e','l','m'] ['h','e','l','m']
      {(['h','e','l','m'] : Word)} = some SearchOutcome.noLadder := by
  decide

/-- C4 counterexample: the call returns the no-solution failure, not the
one-word ladder the claim promises. -/
theorem c4_counterexample :
    find_shortest_solution ['h','e','l','m'] ['h','e','l','m']
        {(['h','e','l','m'] : Word)} = some SearchOutcome.noLadder ∧
    some SearchOutcome.noLadder ≠
      some (SearchOutcome.found [['h','e','l','m']]) := by
  refine ⟨?_, ?_⟩ <;> decide

/-- C5: for every single-letter word and position 0, the claim promises
the empty set without an error, but `find_similar_words` evaluates
`set.intersection()` with no arguments and raises `TypeError` (modelled
by `none`): the code contradicts the spec's required single-letter
behaviour. -/
theorem c5_single_letter_crashes (w : Word)
    (wil : Nat → Char → Finset Word) (h1 : w.length = 1) :
    find_similar_words w 0 wil = none :=
  find_similar_words_single_letter h1 wil

/-- C5 witness: the concrete single-letter query. -/
theorem c5_witness :
    find_similar_words ['a'] 0 (buildWil {(['a'] : Word)}) = none :=
  c5_single_letter_crashes ['a'] (buildWil {(['a'] : Word)}) (by decide)

/-- C6: for every equal-length dictionary and query pair, whenever
`find_shortest_solution` returns a sequence of words, it begins with the
start word, ends with the end word, every consecutive pair differs in
exactly one letter position, and no word appears twice. -/
theorem c6_returned_ladder_wellformed {words : Finset Word}
    {startWord endWord : Word} {l : List Word}
    (Hlen : ∀ w ∈ words, w.length = startWord.length)
    (h : find_shortest_solution startWord endWord words =
      some (SearchOutcome.found l)) :
    l.head? = some startWord ∧ l.getLast? = some endWord ∧
    l.Chain' oneAway ∧ l.Nodup := by
  have hs := search_loop_found Hlen (words.card + 1) [[startWord]]
    {startWord} ?_ l h
  · obtain ⟨⟨h1, h2, h3⟩, h4⟩ := hs
    exact ⟨h1, h2, List.Chain'.imp (fun a b hab => hab.2) h3, h4⟩
  · intro nd hnd
    have hnd2 : nd = [startWord] := by simpa using hnd
    subst hnd2
    refine ⟨⟨rfl, ?_, by simp⟩, ?_⟩
    · simp only [List.reverse_singleton]
      exact List.chain'_singleton _
    · intro w hw
      have : w = startWord := by simpa using hw
      subst this
      exact Finset.mem_singleton_self _

/-- C6 witness: the concrete run on `{ab, bb}` returning `ab → bb`. -/
theorem c6_witness :
    ([['a','b'], ['b','b']] : List Word).head? = some ['a','b'] ∧
    ([['a','b'], ['b','b']] : List Word).getLast? = some ['b','b'] ∧
    ([['a','b'], ['b','b']] : List Word).Chain' oneAway ∧
    ([['a','b'], ['b','b']] : List Word).Nodup :=
  @c6_returned_ladder_wellformed {(['a','b'] : Word), ['b','b']}
    ['a','b'] ['b','b'] [['a','b'], ['b','b']] (by decide) (by decide)

/-- C7 (amended): the cache key of the memoised `find_similar_words` is
the positional argument pair `(word, position)` only and does not include
the index's identity; within queries against one fixed index every cached
entry agrees with direct evaluation and stays consistent, but a result
cached against one index IS returned verbatim for a later query against a
different index (see the counterexample). -/
theorem c7_cache_consistent_per_index {st : CacheState}
    {wil : Nat → Char → Finset Word} (h : CacheConsistent st wil)
    (w : Word) (i : Nat) :
    (∀ r, find_similar_words w i wil = some r →
      ∃ st2, cached_find_similar_words st w i wil = some (r, st2) ∧
        CacheConsistent st2 wil) ∧
    (find_similar_words w i wil = none →
      cached_find_similar_words st w i wil = none) :=
  cached_consistent h w i

/-- C7 witness: on the empty cache (trivially consistent) the raising
path propagates unchanged. -/
theorem c7_witness :
    cached_find_similar_words [] ['a'] 0 (buildWil {(['a'] : Word)}) =
      none :=
  (c7_cache_consistent_per_index
    (fun w i r h => by simp [alist_get] at h) ['a'] 0).2 (by decide)

/-- C7 counterexample: a result cached for `(ab, 0)` against the index of
`{ab, bb}` is returned for the same query against the index of
`{ab, cb}`, even though direct evaluation there differs: a
cross-dictionary cache collision. -/
theorem c7_counterexample :
    cached_find_similar_words [] ['a','b'] 0
        (buildWil {(['a','b'] : Word), ['b','b']}) =
      some ({['b','b']}, [((['a','b'], 0), {['b','b']})]) ∧
    cached_find_similar_words [((['a','b'], 0), {(['b','b'] : Word)})]
        ['a','b'] 0 (buildWil {(['a','b'] : Word), ['c','b']}) =
      some ({['b','b']}, [((['a','b'], 0), {['b','b']})]) ∧
    find_similar_words ['a','b'] 0
        (buildWil {(['a','b'] : Word), ['c','b']}) =
      some {['c','b']} ∧
    ({(['b','b'] : Word)} : Finset Word) ≠ {['c','b']} := by
  refine ⟨?_, ?_, ?_, ?_⟩ <;> decide

/-- C8: the Letter-Position Index is read-only after construction: for
every index built from a word set and every sequence of subsequent
`(position, letter)` reads (similar-word queries and whole ladder
searches read the index through exactly such lookups), the extensional
(position, letter) ↦ word-set mapping is unchanged, a lookup returns the
mapping's value, and a pair that was never populated yields the empty set
rather than an error. -/
theorem c8_index_read_only (ws : List Word) (ops : List (Nat × Char))
    (i : Nat) (c : Char) :
    (∀ j d, wil_fun (run_lookups (build_words_by_indexed_letter ws) ops)
      j d = wil_fun (build_words_by_indexed_letter ws) j d) ∧
    (wil_lookup (run_lookups (build_words_by_indexed_letter ws) ops)
      i c).1 = wil_fun (build_words_by_indexed_letter ws) i c ∧
    ((∀ w ∈ ws, ¬ w.get? i = some c) →
      (wil_lookup (run_lookups (build_words_by_indexed_letter ws) ops)
        i c).1 = ∅) := by
  refine ⟨fun j d => run_lookups_fun ops _ j d, ?_, ?_⟩
  · rw [wil_lookup_fst]
    exact run_lookups_fun ops _ i c
  · intro hnone
    rw [wil_lookup_fst, run_lookups_fun]
    rw [Finset.eq_empty_iff_forall_not_mem]
    intro v hv
    obtain ⟨h1, h2⟩ := (mem_wil_fun_build ws i c v).mp hv
    exact hnone v h1 h2

/-- C8 witness: reading a never-populated pair after some reads. -/
theorem c8_witness :
    (wil_lookup (run_lookups (build_words_by_indexed_letter [['a','b']])
      [(0, 'a'), (3, 'z')]) 3 'z').1 = ∅ :=
  (c8_index_read_only [['a','b']] [(0, 'a'), (3, 'z')] 3 'z').2.2
    (by decide)

/-- C9 (amended): for every finite dictionary and every query pair,
`find_shortest_solution` terminates after at most `|words| + 1` rounds
(the fuel of the embedded loop), because the used-words set strictly
grows each continued round within `insert start words`; the outcome is a
returned ladder, the no-solution `ValueError`, or — for single-letter
frontier words — the `TypeError` of the vacuous intersection.  (The
amendment adds the third outcome; the claim's dichotomy fails on
single-letter dictionaries, see the counterexample.) -/
theorem c9_terminates (startWord endWord : Word) (words : Finset Word) :
    ∃ r, find_shortest_solution startWord endWord words = some r := by
  apply search_loop_total
  · exact Finset.singleton_subset_iff.mpr (Finset.mem_insert_self _ _)
  · have h := Finset.card_insert_le startWord words
    rw [Finset.card_singleton]
    omega

/-- C9 counterexample: on `{a, b}` the query `(a, b)` terminates with the
uncaught `TypeError`, which is neither a returned ladder nor the
no-solution failure. -/
theorem c9_counterexample :
    find_shortest_solution ['a'] ['b'] {(['a'] : Word), ['b']} =
      some SearchOutcome.crashed ∧
    SearchOutcome.crashed ≠ SearchOutcome.noLadder := by
  refine ⟨?_, ?_⟩ <;> decide

/-- C10 (amended): for every equal-length dictionary of words of length
at least two and every pair of distinct words `(a, b)` each reachable
from the other by some ladder, the two searches return sequences of equal
length.  (The amendment adds `a ≠ b` and the length restriction: for
`a = b` the code raises the no-solution failure and returns no sequence
at all, see the counterexample.) -/
theorem c10_symmetric_length {words : Finset Word} {a b : Word}
    (Hlen : ∀ w ∈ words, w.length = a.length)
    (HL2 : 2 ≤ a.length)
    (Hab : a ≠ b)
    (Hex1 : ∃ l, IsLadderFromTo words a b l)
    (Hex2 : ∃ l, IsLadderFromTo words b a l) :
    ∃ l1 l2, find_shortest_solution a b words =
        some (SearchOutcome.found l1) ∧
      find_shortest_solution b a words = some (SearchOutcome.found l2) ∧
      l1.length = l2.length := by
  obtain ⟨lab, hlab⟩ := Hex1
  obtain ⟨lba, hlba⟩ := Hex2
  have hb : b ∈ words := isLadder_end_mem hlab Hab
  have ha : a ∈ words := isLadder_end_mem hlba (Ne.symm Hab)
  have Hlen_b : ∀ w ∈ words, w.length = b.length := by
    intro w hw
    rw [Hlen w hw, ← Hlen b hb]
  have HL2_b : 2 ≤ b.length := by
    rw [Hlen b hb]
    exact HL2
  obtain ⟨l1, h11, h12, _, h14⟩ := find_correct Hlen HL2 Hab ⟨lab, hlab⟩
  obtain ⟨l2, h21, h22, _, h24⟩ :=
    find_correct Hlen_b HL2_b (Ne.symm Hab) ⟨lba, hlba⟩
  refine ⟨l1, l2, h11, h21, ?_⟩
  have hrev1 : IsLadderFromTo words b a l1.reverse :=
    isLadder_reverse h12 ha
  have hrev2 : IsLadderFromTo words a b l2.reverse :=
    isLadder_reverse h22 hb
  have e1 : l1.length ≤ l2.reverse.length := h14 _ hrev2
  have e2 : l2.length ≤ l1.reverse.length := h24 _ hrev1
  rw [List.length_reverse] at e1 e2
  omega

/-- C10 witness: `{ab, bb}` with the pair `(ab, bb)`. -/
theorem c10_witness :
    ∃ l1 l2, find_shortest_solution ['a','b'] ['b','b']
        {(['a','b'] : Word), ['b','b']} = some (SearchOutcome.found l1) ∧
      find_shortest_solution ['b','b'] ['a','b']
        {(['a','b'] : Word), ['b','b']} = some (SearchOutcome.found l2) ∧
      l1.length = l2.length :=
  c10_symmetric_length (by decide) (by decide) (by decide)
    ⟨[['a','b'], ['b','b']], by decide⟩ ⟨[['b','b'], ['a','b']], by decide⟩

/-- C10 counterexample: with dictionary `{dog, dot}` the pair
`(dog, dog)` is connected in both directions by the ladder
`dog → dot → dog`, yet the call raises the no-solution failure and
returns no sequence. -/
theorem c10_counterexample :
    IsLadderFromTo {(['d','o','g'] : Word), ['d','o','t']}
      ['d','o','g'] ['d','o','g']
      [['d','o','g'], ['d','o','t'], ['d','o','g']] ∧
    find_shortest_solution ['d','o','g'] ['d','o','g']
      {(['d','o','g'] : Word), ['d','o','t']} =
      some SearchOutcome.noLadder := by
  refine ⟨?_, ?_⟩ <;> decide



end DictDash
